import Mathlib

/-!
Verification development for the `rust-indexer-for-plex` repository.

The core library (`file_tree/src/lib.rs`) is shallowly embedded here.
Rust `String` values are modelled as `List Char` (UTF-8 strings are
sequences of scalar values; all operations used by the code — substring
search, prefix/suffix tests, single-character splits, replacement of
fixed patterns — act on whole characters, so the character-list model is
faithful).  Filesystem effects (directory creation, symlink creation) are
modelled as event traces; the environment's success or failure of each
call is modelled as a `Nat → Bool` oracle indexed by call order.
-/

set_option maxRecDepth 10000

namespace PlexIndexer

/-- Strings of the Rust program, as lists of characters. -/
abbrev Str := List Char

/-! ### Fixed glyph strings of the source

The byte-exact literals from `lib.rs`: the vertical-continuation pattern
is `'│'` (U+2502) followed by two NO-BREAK SPACEs (U+00A0) and one ASCII
space; the branch connectors are `'├'`/`'└'` with two `'─'` (U+2500) and
an ASCII space. -/

/-- The pattern `"│&nbsp;&nbsp; "` (U+2502, U+00A0, U+00A0, U+0020). -/
def vbar : Str := ['│', ' ', ' ', ' ']

/-- The branch connector `"├── "` with its trailing space. -/
def branch1 : Str := ['├', '─', '─', ' ']

/-- The branch connector `"└── "` with its trailing space. -/
def branch2 : Str := ['└', '─', '─', ' ']

/-- The three-character connector `"├──"` used by `starts_with` tests. -/
def branch1s : Str := ['├', '─', '─']

/-- The three-character connector `"└──"` used by `starts_with` tests. -/
def branch2s : Str := ['└', '─', '─']

/-- Three ASCII spaces, the `r"   "` regex of `is_line_a_file`. -/
def sp3 : Str := [' ', ' ', ' ']

/-- Four ASCII spaces, the `"    "` literal of the parser and formatter. -/
def sp4 : Str := [' ', ' ', ' ', ' ']

/-- `const POST_FIXES: [&str; 4] = [".mp4", ".zip", ".ts", ".srt"];` -/
def POST_FIXES : List Str := [".mp4".data, ".zip".data, ".ts".data, ".srt".data]

/-! ### String primitives mirroring the Rust standard library -/

/-- Rust `str::contains(needle)`: substring search. -/
def containsSub (needle : Str) : Str → Bool
  | [] => needle.isEmpty
  | c :: rest => needle.isPrefixOf (c :: rest) || containsSub needle rest

/-- Helper for `replaceAll`: while `skip > 0` the characters already
consumed by a previous match are passed through silently (they were
replaced); at `skip = 0` the next leftmost match of the pattern is
replaced.  This computes Rust's `str::replace` (all non-overlapping
occurrences, scanning left to right) for a non-empty pattern. -/
def replaceAllGo (pat rep : Str) : Nat → Str → Str
  | _ + 1, [] => []
  | skip + 1, _ :: rest => replaceAllGo pat rep skip rest
  | 0, [] => []
  | 0, c :: rest =>
    if pat.isPrefixOf (c :: rest) then
      rep ++ replaceAllGo pat rep (pat.length - 1) rest
    else
      c :: replaceAllGo pat rep 0 rest

/-- Rust `str::replace(pat, rep)`.  The callers of this function in the
embedded code never pass an empty pattern together with a non-empty
replacement; for an empty pattern with empty replacement Rust returns the
string unchanged, as does this definition. -/
def replaceAll (pat rep l : Str) : Str :=
  if pat.isEmpty then l else replaceAllGo pat rep 0 l

/-- Rust `str::replacen(pat, rep, 1)`: replace the leftmost occurrence
of the pattern, if any. -/
def replaceFirst (pat rep : Str) : Str → Str
  | [] => if pat.isEmpty then rep else []
  | c :: rest =>
    if pat.isEmpty then rep ++ c :: rest
    else if pat.isPrefixOf (c :: rest) then rep ++ (c :: rest).drop pat.length
    else c :: replaceFirst pat rep rest

/-- Count of non-overlapping occurrences of a pattern, scanning left to
right — Rust's `Regex::find_iter(..).count()` for a literal pattern.
Uses the same skip-counter device as `replaceAllGo`. -/
def countPatGo (pat : Str) : Nat → Str → Nat
  | _ + 1, [] => 0
  | skip + 1, _ :: rest => countPatGo pat skip rest
  | 0, [] => 0
  | 0, c :: rest =>
    if pat.isPrefixOf (c :: rest) then 1 + countPatGo pat (pat.length - 1) rest
    else countPatGo pat 0 rest

/-- Count of non-overlapping occurrences of a non-empty literal pattern. -/
def countPat (pat l : Str) : Nat := countPatGo pat 0 l

/-- Rust `str::lines()`: split on `'\n'`, drop a final empty piece (a
trailing newline produces no extra line), and strip one trailing `'\r'`
from each line. -/
def rustLines (s : Str) : List Str :=
  let ls := s.splitOn '\n'
  let ls := if ls.getLast? == some ([] : Str) then ls.dropLast else ls
  ls.map (fun l => if l.getLast? == some '\r' then l.dropLast else l)

/-- Join a list of strings with `'\n'` — Rust `Vec::join("\n")`. -/
def joinNL (ls : List Str) : Str := List.intercalate ['\n'] ls

/-- Join a list of strings with `'/'` — Rust `Vec::join("/")`. -/
def joinSlash (ls : List Str) : Str := List.intercalate ['/'] ls

/-- Rust `char::is_whitespace` (the Unicode White_Space property), used
by `str::trim_start` / `str::trim_end`. -/
def isRustWhitespace (c : Char) : Bool :=
  c ∈ [' ', '\t', '\n', '\r', '\x0b', '\x0c', '\u0085', ' ', ' ',
       ' ', ' ', ' ', ' ', ' ', ' ', ' ',
       ' ', ' ', ' ', ' ', ' ', ' ', ' ',
       ' ', '　']

/-- Rust `str::trim_start().trim_end()`. -/
def rustTrim (s : Str) : Str :=
  ((s.dropWhile isRustWhitespace).reverse.dropWhile isRustWhitespace).reverse

/-- Strict lexicographic comparison of strings by scalar value; agrees
with Rust's `str::cmp` (UTF-8 byte order coincides with scalar-value
order). -/
def lexLt : Str → Str → Bool
  | [], [] => false
  | [], _ :: _ => true
  | _ :: _, [] => false
  | a :: as, b :: bs => a < b || (a == b && lexLt as bs)

/-- Non-strict lexicographic comparison. -/
def lexLe (a b : Str) : Bool := !lexLt b a

/-- Stable insertion of an element into a list sorted by a key
comparison: the new element goes before the first element it is
less-or-equal to, which keeps earlier elements before equal later
ones — the stability contract of Rust's `sort_by`. -/
def insertByLe {α : Type} (le : α → α → Bool) (x : α) : List α → List α
  | [] => [x]
  | y :: ys => if le x y then x :: y :: ys else y :: insertByLe le x ys

/-- Stable insertion sort by a boolean comparison (`Vec::sort_by`). -/
def sortByLe {α : Type} (le : α → α → Bool) : List α → List α
  | [] => []
  | x :: xs => insertByLe le x (sortByLe le xs)

/-- Decimal digits of a natural number. -/
def natStr (n : Nat) : Str := Nat.toDigits 10 n

/-- Rust `format!("{:02}", n)`: zero-padded to width two. -/
def pad2 (n : Nat) : Str := if n < 10 then '0' :: natStr n else natStr n

/-! ### The data model

`FileTree` from `lib.rs` lines 10–15: a path, the files directly in the
directory, and the child directories. -/

structure FileTree where
  path : Str
  files : List Str
  directories : List FileTree

/-! ### `FileTree::to_file_list` (lib.rs lines 238–265)

Pushes the trimmed `prefix + path`, then each trimmed `prefix + file`,
then recursively appends each child's list (with the same prefix). -/

mutual

def to_file_list : FileTree → Str → List Str
  | ⟨path, files, directories⟩, pre =>
    rustTrim (pre ++ path) :: files.map (fun f => rustTrim (pre ++ f))
      ++ to_file_list_aux directories pre

def to_file_list_aux : List FileTree → Str → List Str
  | [], _ => []
  | d :: rest, pre => to_file_list d pre ++ to_file_list_aux rest pre

end

/-! ### `FileTree::to_file_tree` (lib.rs lines 267–325)

Builds a vector of chunks — the root path (when requested), one
connector-prefixed line per file (`├── ` for all but the last file,
`└── ` for the last), and per child directory a connector line followed
by the child's whole rendering re-split on newlines and prefixed
(`"│   "` per line for all but the last child, four spaces per line for
the last child) — then joins the chunks with `"\n"`. -/

/-- The file lines of one node: `├── f` for every file but the last,
`└── f` for the last. -/
def fileLinesOf : List Str → List Str
  | [] => []
  | [f] => [branch2 ++ f]
  | f :: rest => (branch1 ++ f) :: fileLinesOf rest

mutual

def to_file_tree : FileTree → Bool → Str
  | ⟨path, files, directories⟩, root =>
    joinNL ((if root then [path] else []) ++ fileLinesOf files
      ++ dirChunks directories)

def dirChunks : List FileTree → List Str
  | [] => []
  | [d] =>
    [branch2 ++ d.path,
     joinNL (((to_file_tree d false).splitOn '\n').map (fun x => sp4 ++ x))]
  | d :: rest =>
    (branch1 ++ d.path)
      :: joinNL (((to_file_tree d false).splitOn '\n').map (fun x => vbar ++ x))
      :: dirChunks rest

end

/-- The rendering of `to_file_tree` as a flat list of lines: splitting a
child's rendering on newlines yields its own line list, except that an
empty child renders as `""` whose split is the single empty line. -/
def orBlank (ls : List Str) : List Str := if ls.isEmpty then [[]] else ls

mutual

def fmtLines : FileTree → Bool → List Str
  | ⟨path, files, directories⟩, root =>
    (if root then [path] else []) ++ fileLinesOf files ++ dirLines directories

def dirLines : List FileTree → List Str
  | [] => []
  | [d] => (branch2 ++ d.path) :: (orBlank (fmtLines d false)).map (fun x => sp4 ++ x)
  | d :: rest =>
    (branch1 ++ d.path) :: (orBlank (fmtLines d false)).map (fun x => vbar ++ x)
      ++ dirLines rest

end

/-! ### `FileTree::is_line_a_file` (lib.rs lines 116–132)

The "depth" of a line is the number of `'│'` characters anywhere in it
plus the number of non-overlapping three-ASCII-space runs anywhere in it;
a line is a file line iff it ends with a recognized suffix and its depth
is zero. -/

def is_line_a_file (line : Str) : Bool :=
  POST_FIXES.any (fun x => x.isSuffixOf line) && line.count '│' + countPat sp3 line == 0

/-! ### `FileTree::new_from_file_tree` (lib.rs lines 134–236)

The parser.  The root line has all occurrences of the three connector
patterns removed.  File lines (per `is_line_a_file`) are collected in
order, stripped of connectors, and removed from the line stream.  The
remaining lines are scanned left to right: a line starting with `"├──"`
or `"└──"` opens a directory block whose body extends until the next
line that both starts with a branch connector and contains no `'│'`;
body lines starting with the `"│&nbsp;&nbsp; "` pattern have its first
occurrence removed.  If a block's first body line starts with four
spaces, the first four-space occurrence is removed from every line of
the block (header included).  The block is re-joined with newlines,
re-split by `lines()`, and parsed recursively.  The scan-with-skip over
an index `avoid` list in the Rust source visits exactly the lines
outside the already-consumed blocks, which is what the state machine
`blocksGo` below computes. -/

/-- Strip all occurrences of the three connector patterns, in source
order (`"│&nbsp;&nbsp; "` first, then `"├── "`, then `"└── "`). -/
def stripAll3 (l : Str) : Str :=
  replaceAll branch2 [] (replaceAll branch1 [] (replaceAll vbar [] l))

/-- Strip all occurrences of `"├── "` then `"└── "` (the block-header
strip, lib.rs lines 209–212). -/
def stripBranch (l : Str) : Str :=
  replaceAll branch2 [] (replaceAll branch1 [] l)

/-- Does the line start with `"├──"` or `"└──"`? -/
def branchStart (l : Str) : Bool :=
  branch1s.isPrefixOf l || branch2s.isPrefixOf l

/-- The body-terminating test of the forward scan (lib.rs lines
186–196): a branch-starting line containing no `'│'`. -/
def breakLine (l : Str) : Bool := branchStart l && l.count '│' == 0

/-- Body-line preprocessing (lib.rs lines 198–203): remove the first
`"│&nbsp;&nbsp; "` occurrence from lines starting with that pattern. -/
def unPoll (l : Str) : Str :=
  if vbar.isPrefixOf l then replaceFirst vbar [] l else l

/-- Split the (file-free) line stream into directory blocks
`(strippedHeader, processedBody)`.  The running `Option` state is the
currently open block. -/
def blocksGo : List Str → Option (Str × List Str) → List (Str × List Str)
  | [], none => []
  | [], some b => [b]
  | l :: rest, none =>
    if branchStart l then blocksGo rest (some (stripBranch l, []))
    else blocksGo rest none
  | l :: rest, some (h, body) =>
    if breakLine l then (h, body) :: blocksGo rest (some (stripBranch l, []))
    else blocksGo rest (some (h, body ++ [unPoll l]))

/-- The four-space adjustment (lib.rs lines 220–225): if the block has a
second line starting with four spaces, remove the first four-space
occurrence from every line. -/
def adjust4 (dls : List Str) : List Str :=
  match dls with
  | _ :: b :: _ =>
    if sp4.isPrefixOf b then dls.map (replaceFirst sp4 []) else dls
  | _ => dls

/-- The parser over a list of lines, with a recursion-depth fuel (the
Rust recursion is unbounded; every theorem below supplies enough fuel,
and `new_from_file_tree` passes the line count, which the source
recursion never exceeds in depth). -/
def parseF : Nat → List Str → FileTree
  | 0, _ => ⟨[], [], []⟩
  | _ + 1, [] => ⟨[], [], []⟩
  | n + 1, l0 :: rest =>
    let fls := rest.filter is_line_a_file
    let rest2 := rest.filter (fun x => !is_line_a_file x)
    ⟨stripAll3 l0, fls.map stripAll3,
     (blocksGo rest2 none).map
       (fun b => parseF n (rustLines (joinNL (adjust4 (b.1 :: b.2)))))⟩

/-- `FileTree::new_from_file_tree` on a whole string. -/
def new_from_file_tree (s : Str) : FileTree :=
  parseF (rustLines s).length (rustLines s)

/-! ### `FileTree::new_from_string_vector` (lib.rs lines 46–114)

The values are stably sorted by length; the shortest becomes the root
(with one trailing `'/'` removed).  Each remaining entry has all
occurrences of the root path removed and is split on `'/'` (empty
segments discarded): one segment means a direct file; more than one
means a subdirectory named by the first segment.  A subdirectory is
created only when no existing child has path `root + "/" + segment`;
the recursive call receives the entries containing the bare segment
(substring test!) with the constructed subdirectory path appended
(prefixed with `'/'` when not already absolute). -/

/-- Root normalization: strip one trailing slash (lib.rs lines 59–63). -/
def rootNorm (r : Str) : Str :=
  if r.getLast? == some '/' then r.dropLast else r

/-- The constructed subdirectory path before the leading-slash fixup. -/
def nextRootRaw (rootPath dseg : Str) : Str := rootPath ++ '/' :: dseg

/-- The constructed subdirectory path, lib.rs lines 87–94. -/
def nextRootOf (rootPath dseg : Str) : Str :=
  let nr := nextRootRaw rootPath dseg
  if nr.headD ' ' == '/' then nr else '/' :: nr

/-- The input of the recursive call building a subdirectory's child
Node (lib.rs lines 96–104): the current value list with the constructed
subdirectory path pushed at the end, filtered to the strings containing
the bare first segment. -/
def childInputOf (rootPath dseg : Str) (values : List Str) : List Str :=
  (values ++ [nextRootOf rootPath dseg]).filter (fun x => containsSub dseg x)

/-- `FileTree::new_from_string_vector`, with recursion fuel (the Rust
recursion is unbounded and genuinely diverges on some inputs; theorems
supply sufficient fuel for the inputs they mention).  An entry that
strips to no segments at all (for which the Rust code would panic at
`entry_split[0]`) is skipped. -/
def new_from_string_vector : Nat → List Str → FileTree
  | 0, _ => ⟨[], [], []⟩
  | fuel + 1, values =>
    match sortByLe (fun a b => a.length ≤ b.length) values with
    | [] => ⟨[], [], []⟩
    | r0 :: rest =>
      let root := rootNorm r0
      let st := rest.foldl
        (fun (st : List Str × List FileTree) entry =>
          let ec := replaceAll root [] entry
          let parts := (ec.splitOn '/').filter (fun x => !x.isEmpty)
          if parts.length == 1 then (st.1 ++ [entry], st.2)
          else
            match parts with
            | [] => st
            | dseg :: _ =>
              if st.2.any (fun x => x.path == nextRootRaw root dseg) then st
              else
                (st.1,
                 st.2 ++ [new_from_string_vector fuel (childInputOf root dseg rest)]))
        ([], [])
      ⟨root, st.1, st.2⟩

/-! ### `FileTree::plex_course_sym_link` (lib.rs lines 350–439)

Modelled as the ordered trace of attempted filesystem operations
(directory creations and symlink creations).  The log-file write of
lines 396–408 is a non-authoritative persisted artifact (spec §6) and is
not part of the trace. -/

/-- A filesystem operation attempted by the generators. -/
inductive FsOp where
  | mkdir (path : Str)
  | link (target : Str) (linkPath : Str)
deriving DecidableEq, Repr

/-- The flattened file list filtered to qualifying entries: not ending
with `'/'` and ending with a recognized suffix (lib.rs lines 352–361). -/
def plexFileList (t : FileTree) : List Str :=
  (to_file_list t []).filter
    (fun x => !(x.getLast? == some '/')
      && POST_FIXES.any (fun p => p.isSuffixOf x))

/-- The group key of a file: `arr[arr.len() - 2]` of its `'/'`-split
(lib.rs lines 365–369). -/
def parentSeg (f : Str) : Str :=
  let arr := f.splitOn '/'
  arr.getD (arr.length - 2) []

/-- The sorted distinct group keys (lib.rs lines 363–374): the key set
is collected into a `HashSet` (whose iteration order is arbitrary) and
then sorted with `str::cmp`; since the keys are distinct the sorted
result is the unique ordered duplicate-free list, modelled as a stable
sort of the deduplicated key list. -/
def seasonKeys (t : FileTree) : List Str :=
  sortByLe lexLe ((plexFileList t).map parentSeg).dedup

/-- The files of one group: the qualifying entries whose full path
contains the key as a substring, split on `'/'`, stably sorted by last
component (lib.rs lines 379–410). -/
def seasonFilesFrom (filtered : List Str) (season : Str) : List (List Str) :=
  sortByLe (fun a b => lexLe (a.getD (a.length - 1) []) (b.getD (b.length - 1) []))
    ((filtered.filter (fun f => containsSub season f)).map (fun f => f.splitOn '/'))

/-- `format!("Season {} - {}", i + 1, season)`. -/
def seasonName (i : Nat) (season : Str) : Str :=
  "Season ".data ++ natStr (i + 1) ++ " - ".data ++ season

/-- `format!("S{:02}E{:02} - {}", i + 1, j + 1, file_name)` where the
file name has spaces replaced by dots (lib.rs lines 424–428). -/
def episodeName (i j : Nat) (fname : Str) : Str :=
  'S' :: pad2 (i + 1) ++ 'E' :: pad2 (j + 1) ++ " - ".data
    ++ replaceAll [' '] ['.'] fname

/-- The per-group link operations (lib.rs lines 424–437), `j` the
0-based item index. -/
def plexLinksOps (dest sn : Str) (i : Nat) : List (List Str) → Nat → List FsOp
  | [], _ => []
  | file :: rest, j =>
    FsOp.link (joinSlash file)
        (dest ++ '/' :: sn ++ '/' :: episodeName i j (file.getD (file.length - 1) []))
      :: plexLinksOps dest sn i rest (j + 1)

/-- The per-season operations (lib.rs lines 377–438), `i` the 0-based
season index: create the season directory, then link each file. -/
def plexSeasonsOps (dest : Str) (filtered : List Str) : List Str → Nat → List FsOp
  | [], _ => []
  | season :: rest, i =>
    FsOp.mkdir (dest ++ '/' :: seasonName i season)
      :: plexLinksOps dest (seasonName i season) i (seasonFilesFrom filtered season) 0
      ++ plexSeasonsOps dest filtered rest (i + 1)

/-- The ordered operation trace of `FileTree::plex_course_sym_link`. -/
def plexTrace (t : FileTree) (dest : Str) : List FsOp :=
  plexSeasonsOps dest (plexFileList t) (seasonKeys t) 0

/-! The same generator threaded through a failure environment: `env k`
tells whether the `k`-th filesystem call succeeds.  The Rust code
pattern-matches each `Result` only to choose a log message (lib.rs
lines 416–419 and 430–436), so the attempted operations are the same
under every environment — which is the content of the C8 theorem. -/

/-- Link loop with environment: records each attempted operation and
its outcome, continuing regardless of failures. -/
def plexLinksOpsE (env : Nat → Bool) (dest sn : Str) (i : Nat) :
    List (List Str) → Nat → Nat → List (FsOp × Bool)
  | [], _, _ => []
  | file :: rest, j, k =>
    (FsOp.link (joinSlash file)
        (dest ++ '/' :: sn ++ '/' :: episodeName i j (file.getD (file.length - 1) [])),
      env k)
      :: plexLinksOpsE env dest sn i rest (j + 1) (k + 1)

/-- Season loop with environment. -/
def plexSeasonsOpsE (env : Nat → Bool) (dest : Str) (filtered : List Str) :
    List Str → Nat → Nat → List (FsOp × Bool)
  | [], _, _ => []
  | season :: rest, i, k =>
    (FsOp.mkdir (dest ++ '/' :: seasonName i season), env k)
      :: plexLinksOpsE env dest (seasonName i season) i
          (seasonFilesFrom filtered season) 0 (k + 1)
      ++ plexSeasonsOpsE env dest filtered rest (i + 1)
          (k + 1 + (seasonFilesFrom filtered season).length)

/-- The operation/outcome trace of `plex_course_sym_link` under a
failure environment. -/
def plexTraceE (t : FileTree) (dest : Str) (env : Nat → Bool) : List (FsOp × Bool) :=
  plexSeasonsOpsE env dest (plexFileList t) (seasonKeys t) 0 0

/-! ### `FileTree::sym_link` (lib.rs lines 441–455)

For every entry of the flattened list (the root and directory paths
included), create one symlink named by the entry's last `'/'`-segment
directly under the destination; no directories are created. -/

/-- The operation trace of `FileTree::sym_link`. -/
def symLinkOps (dest : Str) : List Str → List FsOp
  | [] => []
  | f :: rest =>
    FsOp.link f (dest ++ '/' :: (f.splitOn '/').getD ((f.splitOn '/').length - 1) [])
      :: symLinkOps dest rest

/-- The ordered operation trace of `FileTree::sym_link`. -/
def symLinkTrace (t : FileTree) (dest : Str) : List FsOp :=
  symLinkOps dest (to_file_list t [])

/-- `sym_link` under a failure environment (the Rust code matches each
`Result` only to log, lib.rs lines 450–453). -/
def symLinkOpsE (env : Nat → Bool) (dest : Str) : List Str → Nat → List (FsOp × Bool)
  | [], _ => []
  | f :: rest, k =>
    (FsOp.link f (dest ++ '/' :: (f.splitOn '/').getD ((f.splitOn '/').length - 1) []),
      env k)
      :: symLinkOpsE env dest rest (k + 1)

/-- The operation/outcome trace of `sym_link` under an environment. -/
def symLinkTraceE (t : FileTree) (dest : Str) (env : Nat → Bool) : List (FsOp × Bool) :=
  symLinkOpsE env dest (to_file_list t []) 0

/-! ### `PlexCourse::generate_symbolic_links`
(src/entities/plex_course.rs lines 50–75)

This historical variant calls `.unwrap()` on every `fs::create_dir`
result, so the first failure aborts the whole run (a panic), in contrast
to the tolerant generators above.  `get_directories_list` (from
src/entities/file_tree.rs / src/main.rs) flattens a tree into its file
entries. -/

mutual

def get_directories_list : FileTree → List Str
  | ⟨_, files, directories⟩ => files ++ get_directories_list_aux directories

def get_directories_list_aux : List FileTree → List Str
  | [] => []
  | d :: rest => get_directories_list d ++ get_directories_list_aux rest

end

/-- The inner episode loop of `generate_symbolic_links`: for each tree
file containing the directory entry, create the episode path with
`.unwrap()`.  Returns the trace, the next episode number, the next call
index, and whether the run aborted. -/
def genLinks (env : Nat → Bool) (dest : Str) (season : Nat) (directory : Str) :
    List Str → Nat → Nat → List (FsOp × Bool) × Nat × Nat × Bool
  | [], episode, k => ([], episode, k, false)
  | file :: rest, episode, k =>
    if containsSub directory file then
      let op := FsOp.mkdir (dest ++ "\\Season ".data ++ natStr season
        ++ "\\Episode ".data ++ natStr episode ++ ".mp4".data)
      if env k then
        let r := genLinks env dest season directory rest (episode + 1) (k + 1)
        ((op, true) :: r.1, r.2)
      else ([(op, false)], episode, k + 1, true)
    else genLinks env dest season directory rest episode k

/-- The outer season loop of `generate_symbolic_links`: create the
season path with `.unwrap()` and run the episode loop; an `.unwrap()`
failure aborts everything. -/
def genSeasons (env : Nat → Bool) (dest : Str) (flist : List Str) :
    List Str → Nat → Nat → Nat → List (FsOp × Bool) × Bool
  | [], _, _, _ => ([], false)
  | dir :: rest, season, episode, k =>
    let op := FsOp.mkdir (dest ++ "\\Season ".data ++ natStr season)
    if env k then
      let r := genLinks env dest season dir flist episode (k + 1)
      if r.2.2.2 then ((op, true) :: r.1, true)
      else
        let r2 := genSeasons env dest flist rest (season + 1) r.2.1 r.2.2.1
        ((op, true) :: r.1 ++ r2.1, r2.2)
    else ([(op, false)], true)

/-- The operation/outcome trace of `PlexCourse::generate_symbolic_links`
(second component: whether the run panicked before completing). -/
def generate_symbolic_links (base file_tree : FileTree) (dest : Str)
    (env : Nat → Bool) : List (FsOp × Bool) × Bool :=
  genSeasons env dest (get_directories_list file_tree)
    (get_directories_list base) 1 1 0

/-! ### `FileTree::new_from_directory` (lib.rs lines 26–44)

The builder walks a real directory; the filesystem is modelled as a
listing oracle giving, for each path, the ordered entries as full paths
with an is-directory flag (spec §6 `listDirectory`).  Fuel bounds the
walk depth (a real filesystem is finite and acyclic). -/

def new_from_directory (fsys : Str → List (Str × Bool)) : Nat → Str → FileTree
  | 0, p => ⟨p, [], []⟩
  | fuel + 1, p =>
    ⟨p, ((fsys p).filter (fun e => !e.2)).map (fun e => e.1),
     ((fsys p).filter (fun e => e.2)).map
       (fun e => new_from_directory fsys fuel e.1)⟩

/-! ### Structural predicates used by the theorems -/

/-- No two elements of the list are equal. -/
def nodupKeys : List Str → Bool
  | [] => true
  | x :: xs => !xs.contains x && nodupKeys xs

mutual

/-- At every node, the children carry pairwise distinct paths. -/
def childPathsDistinct : FileTree → Bool
  | ⟨_, _, directories⟩ =>
    nodupKeys (directories.map FileTree.path) && childPathsDistinctAux directories

def childPathsDistinctAux : List FileTree → Bool
  | [] => true
  | d :: rest => childPathsDistinct d && childPathsDistinctAux rest

end

/-- No two consecutive ASCII spaces. -/
def noDoubleSpace : Str → Bool
  | [] => true
  | [_] => true
  | a :: b :: rest => !(a == ' ' && b == ' ') && noDoubleSpace (b :: rest)

/-- Does the string end with one of the four recognized suffixes? -/
def hasKnownSuffix (s : Str) : Bool := POST_FIXES.any (fun p => p.isSuffixOf s)

/-- A well-formed name: non-empty, not starting with a space, free of
newline, carriage return and the box-drawing characters, and with no
two consecutive spaces. -/
def wfName (s : Str) : Bool :=
  !s.isEmpty && !(s.headD ' ' == ' ')
    && s.all (fun c => !(c ∈ ['\n', '\r', '│', '├', '└']))
    && noDoubleSpace s

/-- A well-formed directory label: a well-formed name not ending with a
recognized suffix. -/
def wfLabel (s : Str) : Bool := wfName s && !hasKnownSuffix s

/-- A well-formed file name: a well-formed name ending with a
recognized suffix. -/
def wfFile (s : Str) : Bool := wfName s && hasKnownSuffix s

mutual

/-- Well-formedness of a whole tree: every label and file name is
well-formed throughout. -/
def wfb : FileTree → Bool
  | ⟨path, files, directories⟩ =>
    wfLabel path && files.all wfFile && wfbAux directories

def wfbAux : List FileTree → Bool
  | [] => true
  | d :: rest => wfb d && wfbAux rest

end

mutual

/-- The height of a tree: 1 plus the maximal child height. -/
def ht : FileTree → Nat
  | ⟨_, _, directories⟩ => 1 + htAux directories

def htAux : List FileTree → Nat
  | [] => 0
  | d :: rest => max (ht d) (htAux rest)

end

/-! ### Spec-side definitions (for refinement comparisons)

These two follow the wording of the specification, not the code; they
exist only to state how the code deviates from the spec's description
of `is_line_a_file`. -/

/-- Modelled from the spec: "compute its nesting depth as the count of
vertical-continuation glyphs occurring before any branch glyph" — the
number of `'│'` characters strictly before the first `'├'` or `'└'`. -/
def specDepth (l : Str) : Nat :=
  (l.takeWhile (fun c => !(c == '├') && !(c == '└'))).count '│'

/-- Modelled from the spec: the connector-stripped name of a line. -/
def specStrippedName (l : Str) : Str := stripAll3 l

/-! ### Concrete trees used by the claims -/

/-- The spec §8 concrete scenario: `/lib` with `/lib/one` holding
`a.mp4`, `b.mp4` and `/lib/two` holding `c.mp4`. -/
def libTree : FileTree :=
  ⟨"/lib".data, [],
   [⟨"/lib/one".data, ["/lib/one/a.mp4".data, "/lib/one/b.mp4".data], []⟩,
    ⟨"/lib/two".data, ["/lib/two/c.mp4".data], []⟩]⟩

/-- A tree whose single file name does not end with a recognized
suffix. -/
def txtTree : FileTree := ⟨"root".data, ["x.txt".data], []⟩

/-- A tree with group keys `one` and `two` and a file whose name embeds
the other group's key. -/
def twoOneTree : FileTree :=
  ⟨"/r".data, [],
   [⟨"/r/one".data, ["/r/one/x.mp4".data], []⟩,
    ⟨"/r/two".data, ["/r/two/one.mp4".data], []⟩]⟩

/-- A base tree for `PlexCourse::generate_symbolic_links` whose
flattened file list has two entries (hence two "season" groups). -/
def baseA : FileTree := ⟨"b".data, ["a".data, "b".data], []⟩

/-- An empty course tree for `PlexCourse::generate_symbolic_links`. -/
def treeA : FileTree := ⟨"t".data, [], []⟩

/-- A tiny two-entry filesystem listing oracle: the root `/r` holds one
subdirectory and one file, everything else is empty. -/
def fsysA : Str → List (Str × Bool) := fun p =>
  if p = "/r".data then [("/r/d".data, true), ("/r/f.mp4".data, false)] else []

end PlexIndexer

namespace PlexIndexer

/-! ## Theorems -/

/-! ### Concrete counterexamples and evaluations -/

/-- Claim C1, counterexample: the tree with single file `x.txt` (whose
name ends with none of the recognized suffixes) formats to
`"root\n└── x.txt"`, but parsing that text misreads the file line as a
directory block, and re-formatting yields `"root\n└── x.txt\n    "` —
the round trip does not reproduce the text. -/
theorem c1_counterexample :
    ¬ (to_file_tree (new_from_file_tree (to_file_tree txtTree true)) true
        = to_file_tree txtTree true) := by
  decide

/-- Claim C2, counterexample: on the spec's concrete scenario the third
link is named `S02E01 - c.mp4` (the episode prefix uses the 1-based
group ordinal, here 2), not `S01E01 - c.mp4` as the claim states. -/
theorem c2_counterexample :
    FsOp.link "/lib/two/c.mp4".data "dest/Season 2 - two/S01E01 - c.mp4".data
        ∉ plexTrace libTree "dest".data
      ∧ FsOp.link "/lib/two/c.mp4".data "dest/Season 2 - two/S02E01 - c.mp4".data
        ∈ plexTrace libTree "dest".data := by
  decide

/-- Claim C2 as amended: on the concrete `/lib` scenario the Season-mode
generator attempts exactly these operations, in this order: create
`dest/Season 1 - one`, link `S01E01 - a.mp4` and `S01E02 - b.mp4` there,
create `dest/Season 2 - two`, and link `S02E01 - c.mp4` there (the `S`
number is the group ordinal). -/
theorem c2_amended :
    plexTrace libTree "dest".data =
      [FsOp.mkdir "dest/Season 1 - one".data,
       FsOp.link "/lib/one/a.mp4".data "dest/Season 1 - one/S01E01 - a.mp4".data,
       FsOp.link "/lib/one/b.mp4".data "dest/Season 1 - one/S01E02 - b.mp4".data,
       FsOp.mkdir "dest/Season 2 - two".data,
       FsOp.link "/lib/two/c.mp4".data "dest/Season 2 - two/S02E01 - c.mp4".data] := by
  decide

/-- Claim C4: evaluation of `new_from_string_vector` at the failing
input `["/r", "/r/onex.mp4", "/r/one/a.mp4"]`.  Because the root-prefix
strip is a substring replacement, `/r/onex.mp4` is also swallowed by the
subdirectory `/r/one` (it strips to the single segment `x.mp4` there),
so it appears twice in the reconstructed tree — once as a root file and
once as a file of `/r/one` — violating the exactly-once coverage the
claim (and spec §8) state. -/
theorem c4_code_evaluation :
    List.count "/r/onex.mp4".data
        (to_file_list
          (new_from_string_vector 5
            ["/r".data, "/r/onex.mp4".data, "/r/one/a.mp4".data]) []) = 2 := by
  decide

/-- Claim C5, counterexample: building from
`["/r", "/r/one/a.mp4", "/r/two/bone.mp4"]`, the subdirectory step for
segment `one` filters by containment of the bare segment, so the
recursive input contains `/r/two/bone.mp4`, which does not contain the
full subdirectory path `/r/one`; that input is exactly what the first
child Node is built from. -/
theorem c5_counterexample :
    "/r/two/bone.mp4".data
        ∈ childInputOf "/r".data "one".data
            ["/r/one/a.mp4".data, "/r/two/bone.mp4".data]
      ∧ containsSub "/r/one".data "/r/two/bone.mp4".data = false
      ∧ (new_from_string_vector 5
            ["/r".data, "/r/one/a.mp4".data, "/r/two/bone.mp4".data]).directories.head?
          = some (new_from_string_vector 4
              (childInputOf "/r".data "one".data
                ["/r/one/a.mp4".data, "/r/two/bone.mp4".data])) := by
  refine ⟨by decide, by decide, rfl⟩

/-- Claim C6, counterexample: for the line `└── a   b.mp4` the claim's
conditions hold — no `'│'` occurs before the branch glyph and the
connector-stripped name ends with `.mp4` — yet the code does not
classify it as a file line, because its depth count also counts the
three-ASCII-space run inside the name. -/
theorem c6_counterexample :
    specDepth (branch2 ++ "a   b.mp4".data) = 0
      ∧ hasKnownSuffix (specStrippedName (branch2 ++ "a   b.mp4".data)) = true
      ∧ is_line_a_file (branch2 ++ "a   b.mp4".data) = false := by
  decide

/-- Claim C7, counterexample: on the `/lib` scenario, `sym_link` creates
no destination subdirectory at all, does not place `a.mp4` under a
per-group subdirectory, and instead links every flattened entry (the
root and the directory paths included) flat under the destination. -/
theorem c7_counterexample :
    (symLinkTrace libTree "dest".data).all
        (fun op => match op with | FsOp.mkdir _ => false | FsOp.link _ _ => true) = true
      ∧ FsOp.link "/lib/one/a.mp4".data "dest/one/a.mp4".data
          ∉ symLinkTrace libTree "dest".data
      ∧ FsOp.link "/lib/one/a.mp4".data "dest/a.mp4".data
          ∈ symLinkTrace libTree "dest".data
      ∧ FsOp.link "/lib".data "dest/lib".data ∈ symLinkTrace libTree "dest".data := by
  decide

/-- Claim C8, counterexample: in `PlexCourse::generate_symbolic_links`
every directory creation is `.unwrap()`ed, so when the very first
creation fails the run aborts (panics): with two groups pending, the
second group's directory is never attempted, while under an all-success
environment it is. -/
theorem c8_counterexample :
    (generate_symbolic_links baseA treeA "dest".data (fun _ => false)).2 = true
      ∧ FsOp.mkdir "dest\\Season 2".data
          ∉ ((generate_symbolic_links baseA treeA "dest".data (fun _ => false)).1.map
              Prod.fst)
      ∧ FsOp.mkdir "dest\\Season 2".data
          ∈ ((generate_symbolic_links baseA treeA "dest".data (fun _ => true)).1.map
              Prod.fst) := by
  decide

/-- Claim C9, counterexample: parsing the well-formed diagram
`root\n├── d\n└── d` yields a root whose two children both have path
`d`, so the children of a `TreeTextCodec`-built tree can repeat a
resolved path. -/
theorem c9_counterexample :
    ¬ ((new_from_file_tree "root\n├── d\n└── d".data).directories.map
        FileTree.path).Nodup := by
  decide

/-- Claim C3, counterexample: in `twoOneTree` the qualifying file
`/r/two/one.mp4` has parent directory `two`, yet it is also a member of
group `one`'s file list (group membership is a substring test on the
whole path), so qualifying files are not assigned to exactly one group. -/
theorem c3_counterexample :
    parentSeg "/r/two/one.mp4".data = "two".data
      ∧ "/r/two/one.mp4".data.splitOn '/'
          ∈ seasonFilesFrom (plexFileList twoOneTree) "one".data
      ∧ "/r/two/one.mp4".data.splitOn '/'
          ∈ seasonFilesFrom (plexFileList twoOneTree) "two".data := by
  decide

end PlexIndexer

namespace PlexIndexer

/-! ### Substring, sort and split lemmas -/

theorem containsSub_iff {n h : Str} : containsSub n h = true ↔ n <:+: h := by
  induction h with
  | nil =>
    simp only [containsSub, List.isEmpty_iff, List.infix_nil]
  | cons c rest ih =>
    simp only [containsSub, Bool.or_eq_true, List.isPrefixOf_iff_prefix, ih]
    constructor
    · rintro (hp | hi)
      · exact hp.isInfix
      · exact List.infix_cons hi
    · rintro ⟨s, t, he⟩
      cases s with
      | nil => exact Or.inl ⟨t, by simpa using he⟩
      | cons a s' =>
        refine Or.inr ⟨s', t, ?_⟩
        have := he
        simp only [List.cons_append] at this
        exact (List.cons.injEq .. ▸ this).2

theorem containsSub_of_suffix {n h : Str} (hs : n <:+ h) : containsSub n h = true :=
  containsSub_iff.2 hs.isInfix

theorem insertByLe_perm {α : Type} (le : α → α → Bool) (x : α) :
    ∀ l : List α, List.Perm (insertByLe le x l) (x :: l) := by
  intro l
  induction l with
  | nil => rfl
  | cons y ys ih =>
    by_cases h : le x y
    · simp [insertByLe, h]
    · simp only [insertByLe, h, Bool.false_eq_true, if_false]
      exact (ih.cons y).trans (List.Perm.swap x y ys)

theorem sortByLe_perm {α : Type} (le : α → α → Bool) :
    ∀ l : List α, List.Perm (sortByLe le l) l := by
  intro l
  induction l with
  | nil => rfl
  | cons x xs ih => exact (insertByLe_perm le x (sortByLe le xs)).trans (ih.cons x)

theorem mem_sortByLe {α : Type} {le : α → α → Bool} {x : α} {l : List α} :
    x ∈ sortByLe le l ↔ x ∈ l :=
  (sortByLe_perm le l).mem_iff

theorem sorted_insertByLe {α : Type} {le : α → α → Bool}
    (htot : ∀ a b, le a b = true ∨ le b a = true)
    (htr : ∀ a b c, le a b = true → le b c = true → le a c = true) (x : α) :
    ∀ l : List α, List.Sorted (fun a b => le a b = true) l →
      List.Sorted (fun a b => le a b = true) (insertByLe le x l) := by
  intro l
  induction l with
  | nil => intro; simp only [insertByLe]; exact List.sorted_singleton x
  | cons y ys ih =>
    intro hs
    rw [List.sorted_cons] at hs
    by_cases h : le x y
    · simp only [insertByLe, h, if_true]
      rw [List.sorted_cons]
      refine ⟨?_, List.sorted_cons.2 hs⟩
      intro b hb
      rcases List.mem_cons.1 hb with hb | hb
      · exact hb ▸ h
      · exact htr x y b h (hs.1 b hb)
    · simp only [insertByLe, h, Bool.false_eq_true, if_false]
      rw [List.sorted_cons]
      constructor
      · intro b hb
        rcases List.mem_cons.1 ((insertByLe_perm le x ys).mem_iff.1 hb) with hb | hb
        · rcases htot x y with h' | h'
          · exact absurd h' h
          · exact hb ▸ h'
        · exact hs.1 b hb
      · exact ih hs.2

theorem sorted_sortByLe {α : Type} {le : α → α → Bool}
    (htot : ∀ a b, le a b = true ∨ le b a = true)
    (htr : ∀ a b c, le a b = true → le b c = true → le a c = true) :
    ∀ l : List α, List.Sorted (fun a b => le a b = true) (sortByLe le l) := by
  intro l
  induction l with
  | nil => simp [sortByLe]
  | cons x xs ih => exact sorted_insertByLe htot htr x _ ih

theorem lexLt_irrefl : ∀ a : Str, lexLt a a = false := by
  intro a
  induction a with
  | nil => rfl
  | cons c cs ih => simp [lexLt, ih, lt_irrefl]

theorem lexLt_trans : ∀ a b c : Str, lexLt a b = true → lexLt b c = true →
    lexLt a c = true := by
  intro a
  induction a with
  | nil =>
    intro b c hab hbc
    cases b with
    | nil => exact absurd hab (by simp [lexLt])
    | cons y ys =>
      cases c with
      | nil => exact absurd hbc (by simp [lexLt])
      | cons z zs => simp [lexLt]
  | cons x xs ih =>
    intro b c hab hbc
    cases b with
    | nil => exact absurd hab (by simp [lexLt])
    | cons y ys =>
      cases c with
      | nil => exact absurd hbc (by simp [lexLt])
      | cons z zs =>
        simp only [lexLt, Bool.or_eq_true, Bool.and_eq_true, beq_iff_eq,
          decide_eq_true_eq] at hab hbc ⊢
        rcases hab with hxy | ⟨hxy, hr⟩
        · rcases hbc with hyz | ⟨hyz, _⟩
          · exact Or.inl (lt_trans hxy hyz)
          · exact Or.inl (hyz ▸ hxy)
        · rcases hbc with hyz | ⟨hyz, hr'⟩
          · exact Or.inl (hxy ▸ hyz)
          · exact Or.inr ⟨hxy.trans hyz, ih ys zs hr hr'⟩

theorem lexLt_conn : ∀ a b : Str, a ≠ b → lexLt a b = true ∨ lexLt b a = true := by
  intro a
  induction a with
  | nil =>
    intro b hne
    cases b with
    | nil => exact absurd rfl hne
    | cons y ys => exact Or.inl (by simp [lexLt])
  | cons x xs ih =>
    intro b hne
    cases b with
    | nil => exact Or.inr (by simp [lexLt])
    | cons y ys =>
      by_cases hxy : x = y
      · subst hxy
        have hne' : xs ≠ ys := fun h => hne (h ▸ rfl)
        rcases ih ys hne' with h | h
        · exact Or.inl (by simp [lexLt, h])
        · exact Or.inr (by simp [lexLt, h])
      · rcases lt_or_gt_of_ne hxy with h | h
        · exact Or.inl (by simp [lexLt, h])
        · exact Or.inr (by simp [lexLt, h])

theorem lexLe_total : ∀ a b : Str, lexLe a b = true ∨ lexLe b a = true := by
  intro a b
  by_cases h : a = b
  · subst h
    exact Or.inl (by simp [lexLe, lexLt_irrefl])
  · rcases lexLt_conn a b h with h' | h'
    · refine Or.inl ?_
      simp only [lexLe, Bool.not_eq_true']
      cases hba : lexLt b a
      · rfl
      · have := lexLt_trans a b a h' hba
        rw [lexLt_irrefl] at this
        exact this.symm
    · refine Or.inr ?_
      simp only [lexLe, Bool.not_eq_true']
      cases hab : lexLt a b
      · rfl
      · have := lexLt_trans b a b h' hab
        rw [lexLt_irrefl] at this
        exact this.symm

theorem lexLe_trans : ∀ a b c : Str, lexLe a b = true → lexLe b c = true →
    lexLe a c = true := by
  intro a b c hab hbc
  simp only [lexLe, Bool.not_eq_true'] at hab hbc ⊢
  by_contra hca
  rw [Bool.not_eq_false] at hca
  by_cases h1 : a = b
  · subst h1
    rw [hca] at hbc
    exact absurd hbc (by simp)
  · by_cases h2 : b = c
    · subst h2
      rw [hca] at hab
      exact absurd hab (by simp)
    · rcases lexLt_conn a b h1 with h | h
      · rcases lexLt_conn b c h2 with h' | h'
        · have := lexLt_trans c a b hca h
          rw [this] at hbc
          exact absurd hbc (by simp)
        · rw [h'] at hbc
          exact absurd hbc (by simp)
      · rw [h] at hab
        exact absurd hab (by simp)

theorem splitOn_head_pre (c : Char) :
    ∀ l : Str, (l.splitOn c).headD [] <+: l := by
  intro l
  induction l with
  | nil => simp [List.splitOn_nil]
  | cons a l ih =>
    show (((a :: l).splitOnP (· == c)).headD []) <+: a :: l
    rw [List.splitOnP_cons]
    by_cases h : a = c
    · simp [h]
    · have hb : (a == c) = false := beq_eq_false_iff_ne.2 h
      simp only [hb, Bool.false_eq_true, if_false]
      cases h' : l.splitOnP (· == c) with
      | nil => exact absurd h' (List.splitOnP_ne_nil _ l)
      | cons hd tl =>
        simp only [List.modifyHead, List.headD_cons]
        have : hd <+: l := by
          have := ih
          unfold List.splitOn at this
          rw [h'] at this
          simpa using this
        exact (List.prefix_cons_inj a).2 this

theorem mem_splitOn_piece (c : Char) :
    ∀ (l : Str) (x : Str), x ∈ l.splitOn c → x <:+: l := by
  intro l
  induction l with
  | nil =>
    intro x hx
    simp only [List.splitOn_nil, List.mem_singleton] at hx
    exact hx ▸ List.nil_infix
  | cons a l ih =>
    intro x hx
    have hx' : x ∈ (a :: l).splitOnP (· == c) := hx
    rw [List.splitOnP_cons] at hx'
    by_cases h : a = c
    · simp only [h, beq_self_eq_true, if_true, List.mem_cons] at hx'
      rcases hx' with rfl | hx'
      · exact List.nil_infix
      · exact List.infix_cons (ih x hx')
    · have hb : (a == c) = false := beq_eq_false_iff_ne.2 h
      simp only [hb, Bool.false_eq_true, if_false] at hx'
      cases h' : l.splitOnP (· == c) with
      | nil => exact absurd h' (List.splitOnP_ne_nil _ l)
      | cons hd tl =>
        rw [h'] at hx'
        simp only [List.modifyHead, List.mem_cons] at hx'
        rcases hx' with rfl | hx'
        · have hpfx : hd <+: l := by
            have := splitOn_head_pre c l
            unfold List.splitOn at this
            rw [h'] at this
            simpa using this
          exact ((List.prefix_cons_inj a).2 hpfx).isInfix
        · have : x ∈ l.splitOn c := by
            unfold List.splitOn
            rw [h']
            exact List.mem_cons_of_mem hd hx'
          exact List.infix_cons (ih x this)

theorem nodupKeys_iff : ∀ l : List Str, nodupKeys l = true ↔ l.Nodup := by
  intro l
  induction l with
  | nil => simp [nodupKeys]
  | cons x xs ih =>
    simp [nodupKeys, ih, List.nodup_cons, List.elem_iff]

end PlexIndexer

namespace PlexIndexer

/-! ### Main theorems: C5, C6, C7, C8, C9, C10 -/

/-- Claim C5 as amended: in `PathListBuilder`'s recursive step the child
Node is built from the strings selected by testing containment of the
bare first segment (the subdirectory's name), with the full constructed
subdirectory path added so the recursive call has a valid root
candidate; consequently every string of the recursive call's input
contains the segment name (but, per the counterexample, not necessarily
the full subdirectory path). -/
theorem c5_amended :
    ∀ (rootPath dseg : Str) (values : List Str),
      nextRootOf rootPath dseg ∈ childInputOf rootPath dseg values
        ∧ ∀ x ∈ childInputOf rootPath dseg values, containsSub dseg x = true := by
  intro r d v
  constructor
  · refine List.mem_filter.2 ⟨List.mem_append_right _ (List.mem_singleton.2 rfl), ?_⟩
    have hsfx : d <:+ nextRootRaw r d := ⟨r ++ ['/'], by simp [nextRootRaw]⟩
    unfold nextRootOf
    by_cases h : ((nextRootRaw r d).headD ' ' == '/') = true
    · simp only [h, if_true]
      exact containsSub_of_suffix hsfx
    · simp only [h, if_false]
      exact containsSub_iff.2 (List.infix_cons hsfx.isInfix)
  · intro x hx
    exact (List.mem_filter.1 hx).2

/-- Witness for C5: the amended statement applied at the concrete
recursive step of the C5 counterexample input. -/
theorem c5_witness :
    containsSub "one".data "/r/two/bone.mp4".data = true
      ∧ nextRootOf "/r".data "one".data
          ∈ childInputOf "/r".data "one".data
              ["/r/one/a.mp4".data, "/r/two/bone.mp4".data] := by
  refine ⟨?_, (c5_amended "/r".data "one".data _).1⟩
  exact (c5_amended "/r".data "one".data
      ["/r/one/a.mp4".data, "/r/two/bone.mp4".data]).2 _ (by decide)

/-- Claim C6 as amended: a (non-root) line is classified as a file line
iff its depth — the count of `'│'` characters anywhere in the line plus
the count of non-overlapping three-ASCII-space runs anywhere in the
line — is zero and the line ends with one of the recognized suffixes
(ending with a recognized suffix is unaffected by connector
stripping). -/
theorem c6_amended :
    ∀ l : Str, is_line_a_file l = true ↔
      (l.count '│' = 0 ∧ countPat sp3 l = 0
        ∧ ∃ p ∈ POST_FIXES, p.isSuffixOf l = true) := by
  intro l
  unfold is_line_a_file
  rw [Bool.and_eq_true, List.any_eq_true, beq_iff_eq]
  constructor
  · rintro ⟨⟨p, hp, hs⟩, hz⟩
    exact ⟨by omega, by omega, p, hp, hs⟩
  · rintro ⟨h1, h2, p, hp, hs⟩
    exact ⟨⟨p, hp, hs⟩, by omega⟩

/-- Claim C7 as amended: in the non-Season (default) mode, `sym_link`
creates no destination subdirectories at all; it creates, for every
entry of the flattened list — the root path and the directory paths
included, not only the group files — one symbolic link directly under
the destination root, named by the entry's final `'/'`-segment and
pointing at the entry's original path. -/
theorem c7_amended :
    ∀ (t : FileTree) (dest : Str),
      symLinkTrace t dest =
          (to_file_list t []).map
            (fun f => FsOp.link f
              (dest ++ '/' :: (f.splitOn '/').getD ((f.splitOn '/').length - 1) []))
        ∧ ∀ p, FsOp.mkdir p ∉ symLinkTrace t dest := by
  have hmap : ∀ (dest : Str) (l : List Str), symLinkOps dest l =
      l.map (fun f => FsOp.link f
        (dest ++ '/' :: (f.splitOn '/').getD ((f.splitOn '/').length - 1) [])) := by
    intro dest l
    induction l with
    | nil => rfl
    | cons f rest ih => simp [symLinkOps, ih]
  intro t dest
  refine ⟨hmap dest _, ?_⟩
  intro p hp
  rw [symLinkTrace, hmap] at hp
  rcases List.mem_map.1 hp with ⟨f, _, hf⟩
  exact FsOp.noConfusion hf

/-- Claim C8 as amended: in `FileTree::plex_course_sym_link` and
`FileTree::sym_link` each filesystem result is inspected only to choose
a log message, so the attempted operation sequence is the same under
every failure environment — a failed directory creation or link skips
only itself, all remaining groups and files are still attempted, and no
operation is ever undone.  (The vestigial
`PlexCourse::generate_symbolic_links`, by contrast, unwraps every
result and aborts at the first failure, per the counterexample.) -/
theorem c8_amended :
    ∀ (t : FileTree) (dest : Str) (env env2 : Nat → Bool),
      (plexTraceE t dest env).map Prod.fst = plexTrace t dest
        ∧ (plexTraceE t dest env).map Prod.fst = (plexTraceE t dest env2).map Prod.fst
        ∧ (symLinkTraceE t dest env).map Prod.fst = symLinkTrace t dest := by
  have hlinks : ∀ (env : Nat → Bool) (dest sn : Str) (i : Nat)
      (files : List (List Str)) (j k : Nat),
      (plexLinksOpsE env dest sn i files j k).map Prod.fst
        = plexLinksOps dest sn i files j := by
    intro env dest sn i files
    induction files with
    | nil => intro j k; rfl
    | cons f rest ih => intro j k; simp [plexLinksOpsE, plexLinksOps, ih]
  have hseasons : ∀ (env : Nat → Bool) (dest : Str) (filtered : List Str)
      (seasons : List Str) (i k : Nat),
      (plexSeasonsOpsE env dest filtered seasons i k).map Prod.fst
        = plexSeasonsOps dest filtered seasons i := by
    intro env dest filtered seasons
    induction seasons with
    | nil => intro i k; rfl
    | cons s rest ih =>
      intro i k
      simp [plexSeasonsOpsE, plexSeasonsOps, hlinks, ih]
  have hsym : ∀ (env : Nat → Bool) (dest : Str) (l : List Str) (k : Nat),
      (symLinkOpsE env dest l k).map Prod.fst = symLinkOps dest l := by
    intro env dest l
    induction l with
    | nil => intro k; rfl
    | cons f rest ih => intro k; simp [symLinkOpsE, symLinkOps, ih]
  intro t dest env env2
  exact ⟨hseasons env dest _ _ 0 0,
    (hseasons env dest _ _ 0 0).trans (hseasons env2 dest _ _ 0 0).symm,
    hsym env dest _ 0⟩

/-- Claim C9 as amended: the children of a `DirectoryBuilder` tree carry
pairwise distinct paths at every level, provided each directory listing
yields entries with distinct paths (the filesystem guarantee); the
invariant is not established by the other two builders — `TreeTextCodec`
parse violates it outright (counterexample), and `PathListBuilder`'s
duplicate check compares existing children only against the constructed
path `root/segment`, while a created child may end up with a different
path (the shortest string of its filtered input). -/
theorem c9_amended :
    ∀ (fsys : Str → List (Str × Bool)),
      (∀ p, nodupKeys ((fsys p).map Prod.fst) = true) →
      ∀ (fuel : Nat) (p : Str),
        childPathsDistinct (new_from_directory fsys fuel p) = true := by
  intro fsys hfs fuel
  have hpath : ∀ (fuel : Nat) (p : Str), (new_from_directory fsys fuel p).path = p := by
    intro fuel p
    cases fuel <;> rfl
  have haux : ∀ l : List FileTree, (∀ d ∈ l, childPathsDistinct d = true) →
      childPathsDistinctAux l = true := by
    intro l
    induction l with
    | nil => intro; rfl
    | cons d rest ih =>
      intro h
      simp only [childPathsDistinctAux, Bool.and_eq_true]
      exact ⟨h d (List.mem_cons_self d rest),
        ih (fun x hx => h x (List.mem_cons_of_mem d hx))⟩
  induction fuel with
  | zero =>
    intro p
    simp [new_from_directory, childPathsDistinct, childPathsDistinctAux, nodupKeys]
  | succ n ih =>
    intro p
    show childPathsDistinct
      ⟨p, ((fsys p).filter (fun e => !e.2)).map (fun e => e.1),
       ((fsys p).filter (fun e => e.2)).map
         (fun e => new_from_directory fsys n e.1)⟩ = true
    simp only [childPathsDistinct, Bool.and_eq_true]
    constructor
    · rw [List.map_map]
      have hfun : (FileTree.path ∘ fun e : Str × Bool => new_from_directory fsys n e.1)
          = fun e : Str × Bool => e.1 := by
        funext e
        exact hpath n e.1
      rw [hfun, nodupKeys_iff]
      have hsub : (((fsys p).filter (fun e => e.2)).map (fun e : Str × Bool => e.1)).Sublist
          ((fsys p).map (fun e : Str × Bool => e.1)) :=
        List.Sublist.map _ ((fsys p).filter_sublist)
      have : ((fsys p).map (fun e : Str × Bool => e.1)).Nodup := by
        have := hfs p
        rw [nodupKeys_iff] at this
        exact this
      exact hsub.nodup this
    · refine haux _ ?_
      intro d hd
      rcases List.mem_map.1 hd with ⟨e, _, he⟩
      exact he ▸ ih e.1

/-- Witness for C9: the amended invariant applied to the concrete
two-entry listing oracle `fsysA` at depth 2. -/
theorem c9_witness :
    childPathsDistinct (new_from_directory fsysA 2 "/r".data) = true := by
  refine c9_amended fsysA ?_ 2 "/r".data
  intro p
  unfold fsysA
  by_cases h : p = "/r".data
  · rw [if_pos h]
    decide
  · rw [if_neg h]
    rfl

/-- Claim C10 (confirmed): the recognized-suffix set shared by the
parser's file-line classification and the Season-mode generator's
qualifying filter is the fixed list `[".mp4", ".zip", ".ts", ".srt"]`;
a string ending with none of these is never classified as a file line
by `is_line_a_file` and never appears as the target of a link created
by `plex_course_sym_link`. -/
theorem c10_suffixes :
    POST_FIXES = [".mp4".data, ".zip".data, ".ts".data, ".srt".data]
      ∧ ∀ s : Str, (∀ p ∈ POST_FIXES, ¬ p.isSuffixOf s = true) →
          is_line_a_file s = false
            ∧ ∀ (t : FileTree) (dest lp : Str),
                FsOp.link s lp ∉ plexTrace t dest := by
  have hlinks : ∀ (dest sn : Str) (i : Nat) (files : List (List Str)) (j : Nat)
      (tgt lp : Str), FsOp.link tgt lp ∈ plexLinksOps dest sn i files j →
      ∃ file ∈ files, tgt = joinSlash file := by
    intro dest sn i files
    induction files with
    | nil => intro j tgt lp h; exact absurd h (List.not_mem_nil _)
    | cons f rest ih =>
      intro j tgt lp h
      rcases List.mem_cons.1 h with h | h
      · exact ⟨f, List.mem_cons_self f rest, (FsOp.link.injEq .. ▸ h).1⟩
      · rcases ih (j + 1) tgt lp h with ⟨file, hm, he⟩
        exact ⟨file, List.mem_cons_of_mem f hm, he⟩
  have hseasons : ∀ (dest : Str) (filtered : List Str) (seasons : List Str)
      (i : Nat) (tgt lp : Str),
      FsOp.link tgt lp ∈ plexSeasonsOps dest filtered seasons i →
      ∃ season ∈ seasons, ∃ file ∈ seasonFilesFrom filtered season,
        tgt = joinSlash file := by
    intro dest filtered seasons
    induction seasons with
    | nil => intro i tgt lp h; exact absurd h (List.not_mem_nil _)
    | cons s rest ih =>
      intro i tgt lp h
      rcases List.mem_cons.1 h with h | h
      · exact absurd h (by simp)
      · rcases List.mem_append.1 h with h | h
        · rcases hlinks dest _ i _ 0 tgt lp h with ⟨file, hm, he⟩
          exact ⟨s, List.mem_cons_self s rest, file, hm, he⟩
        · rcases ih (i + 1) tgt lp h with ⟨season, hm, file, hfm, he⟩
          exact ⟨season, List.mem_cons_of_mem s hm, file, hfm, he⟩
  refine ⟨rfl, ?_⟩
  intro s hs
  constructor
  · unfold is_line_a_file
    cases hany : POST_FIXES.any (fun x => x.isSuffixOf s)
    · rfl
    · rcases List.any_eq_true.1 hany with ⟨p, hp, hsfx⟩
      exact absurd hsfx (hs p hp)
  · intro t dest lp hmem
    rcases hseasons dest (plexFileList t) (seasonKeys t) 0 s lp hmem
      with ⟨season, _, file, hfm, he⟩
    have : ∃ f ∈ plexFileList t, file = f.splitOn '/' := by
      rcases List.mem_map.1 (mem_sortByLe.1 hfm) with ⟨f, hf, hfe⟩
      exact ⟨f, (List.mem_filter.1 hf).1, hfe.symm⟩
    rcases this with ⟨f, hf, rfl⟩
    have hts : s = f := by
      rw [he]
      exact List.intercalate_splitOn f '/'
    have hq := (List.mem_filter.1 hf).2
    rw [Bool.and_eq_true, List.any_eq_true] at hq
    rcases hq.2 with ⟨p, hp, hsfx⟩
    exact absurd (hts ▸ hsfx) (hs p hp)

/-- Witness for C10: the suffix theorem applied at the concrete path
`x.txt` (no recognized suffix) and the `/lib` scenario tree. -/
theorem c10_witness :
    is_line_a_file "x.txt".data = false
      ∧ FsOp.link "x.txt".data "dest/x.txt".data ∉ plexTrace libTree "dest".data := by
  have h := c10_suffixes.2 "x.txt".data (by decide)
  exact ⟨h.1, h.2 libTree "dest".data "dest/x.txt".data⟩

end PlexIndexer

namespace PlexIndexer

/-- Claim C3 as amended: every qualifying file is assigned at least to
the group keyed by its immediate containing directory (the `'/'`-segment
before the filename) — group membership being a substring test on the
whole path, a file can also land in other groups whose key occurs in its
path, per the counterexample; the distinct group keys are sorted
lexicographically without duplicates, each key's 1-based position being
its group ordinal, so the keys `{"two", "one"}` receive ordinals
`one = 1, two = 2`. -/
theorem c3_amended :
    (∀ (t : FileTree) (f : Str), f ∈ plexFileList t → 2 ≤ (f.splitOn '/').length →
        parentSeg f ∈ seasonKeys t
          ∧ containsSub (parentSeg f) f = true
          ∧ f.splitOn '/' ∈ seasonFilesFrom (plexFileList t) (parentSeg f))
      ∧ (∀ t : FileTree, List.Sorted (fun a b => lexLe a b = true) (seasonKeys t)
          ∧ (seasonKeys t).Nodup)
      ∧ seasonKeys twoOneTree = ["one".data, "two".data] := by
  refine ⟨?_, ?_, by decide⟩
  · intro t f hf h2
    have hps : parentSeg f ∈ f.splitOn '/' := by
      unfold parentSeg
      have hlt : (f.splitOn '/').length - 2 < (f.splitOn '/').length := by omega
      rw [List.getD_eq_getElem _ _ hlt]
      exact List.getElem_mem _
    have hinf : containsSub (parentSeg f) f = true :=
      containsSub_iff.2 (mem_splitOn_piece '/' f _ hps)
    refine ⟨?_, hinf, ?_⟩
    · unfold seasonKeys
      rw [mem_sortByLe, List.mem_dedup]
      exact List.mem_map_of_mem parentSeg hf
    · unfold seasonFilesFrom
      rw [mem_sortByLe]
      exact List.mem_map_of_mem _ (List.mem_filter.2 ⟨hf, hinf⟩)
  · intro t
    exact ⟨sorted_sortByLe lexLe_total lexLe_trans _,
      ((sortByLe_perm lexLe _).nodup_iff).2 (List.nodup_dedup _)⟩

/-- Witness for C3: the amended statement applied to the qualifying file
`/r/one/x.mp4` of the two-group tree. -/
theorem c3_witness :
    parentSeg "/r/one/x.mp4".data ∈ seasonKeys twoOneTree
      ∧ containsSub (parentSeg "/r/one/x.mp4".data) "/r/one/x.mp4".data = true
      ∧ "/r/one/x.mp4".data.splitOn '/'
          ∈ seasonFilesFrom (plexFileList twoOneTree)
              (parentSeg "/r/one/x.mp4".data) :=
  c3_amended.1 twoOneTree "/r/one/x.mp4".data (by decide) (by decide)

end PlexIndexer

namespace PlexIndexer

/-! ### String-primitive lemmas for the round-trip proof -/

theorem not_infix_of_mem_not_mem {pat l : Str} {c : Char} (hc : c ∈ pat)
    (hl : c ∉ l) : ¬ pat <:+: l := fun h => hl (h.sublist.subset hc)

theorem countPat_cons_skip {pat : Str} {c : Char} {l : Str}
    (h : pat.isPrefixOf (c :: l) = false) :
    countPat pat (c :: l) = countPat pat l := by
  have hstep : countPatGo pat 0 (c :: l)
      = if pat.isPrefixOf (c :: l) then 1 + countPatGo pat (pat.length - 1) l
        else countPatGo pat 0 l := rfl
  unfold countPat
  rw [hstep, h]
  simp

theorem countPat_zero_absent {pat l : Str} (h : ¬ pat <:+: l) :
    countPat pat l = 0 := by
  induction l with
  | nil => rfl
  | cons c rest ih =>
    have hp : pat.isPrefixOf (c :: rest) = false := by
      cases hb : pat.isPrefixOf (c :: rest)
      · rfl
      · exact absurd (List.isPrefixOf_iff_prefix.1 hb).isInfix h
    rw [countPat_cons_skip hp]
    exact ih (fun h' => h (List.infix_cons h'))

theorem isPrefixOf_append_self (pat x : Str) : pat.isPrefixOf (pat ++ x) = true :=
  List.isPrefixOf_iff_prefix.2 (List.prefix_append pat x)

theorem countPat_pos_of_prefix {pat l : Str} (hne : pat ≠ [])
    (h : pat.isPrefixOf l = true) : 1 ≤ countPat pat l := by
  cases l with
  | nil =>
    cases pat with
    | nil => exact absurd rfl hne
    | cons p pt => exact absurd h (by simp [List.isPrefixOf])
  | cons c rest =>
    unfold countPat countPatGo
    rw [h]
    simp

theorem replaceAllGo_skip (pat rep : Str) :
    ∀ y x : Str, replaceAllGo pat rep y.length (y ++ x) = replaceAllGo pat rep 0 x := by
  intro y
  induction y with
  | nil => intro x; rfl
  | cons a y ih =>
    intro x
    show replaceAllGo pat rep (y.length + 1) (a :: (y ++ x)) = replaceAllGo pat rep 0 x
    rw [replaceAllGo, ih]

theorem replaceAll_absent {pat rep l : Str} (h : ¬ pat <:+: l) :
    replaceAll pat rep l = l := by
  unfold replaceAll
  by_cases he : pat.isEmpty
  · rw [if_pos he]
  · rw [if_neg he]
    induction l with
    | nil => cases pat with | nil => rfl | cons p pt => rfl
    | cons c rest ih =>
      have hp : pat.isPrefixOf (c :: rest) = false := by
        cases hb : pat.isPrefixOf (c :: rest)
        · rfl
        · exact absurd (List.isPrefixOf_iff_prefix.1 hb).isInfix h
      rw [replaceAllGo, hp]
      simp only [Bool.false_eq_true, if_false]
      rw [ih (fun h' => h (List.infix_cons h'))]

theorem replaceAll_cons_pat {pat x : Str} (hne : pat ≠ []) :
    replaceAll pat [] (pat ++ x) = replaceAll pat [] x := by
  cases pat with
  | nil => exact absurd rfl hne
  | cons p pt =>
    show replaceAll (p :: pt) [] (p :: (pt ++ x)) = replaceAll (p :: pt) [] x
    unfold replaceAll
    simp only [List.isEmpty_cons, if_false, Bool.false_eq_true]
    rw [replaceAllGo]
    rw [show (p :: (pt ++ x)) = (p :: pt) ++ x from rfl, isPrefixOf_append_self]
    simp only [if_true, List.nil_append]
    have : (p :: pt).length - 1 = pt.length := by simp
    rw [this, replaceAllGo_skip]

theorem replaceFirst_absent {pat rep l : Str} (hne : pat ≠ [])
    (h : ¬ pat <:+: l) : replaceFirst pat rep l = l := by
  have he : pat.isEmpty = false := by
    cases pat with
    | nil => exact absurd rfl hne
    | cons p pt => rfl
  induction l with
  | nil => simp [replaceFirst, he]
  | cons c rest ih =>
    have hp : pat.isPrefixOf (c :: rest) = false := by
      cases hb : pat.isPrefixOf (c :: rest)
      · rfl
      · exact absurd (List.isPrefixOf_iff_prefix.1 hb).isInfix h
    unfold replaceFirst
    rw [he, hp]
    simp only [Bool.false_eq_true, if_false]
    rw [ih (fun h' => h (List.infix_cons h'))]

theorem replaceFirst_append_pat {pat x : Str} (hne : pat ≠ []) :
    replaceFirst pat [] (pat ++ x) = x := by
  cases pat with
  | nil => exact absurd rfl hne
  | cons p pt =>
    show replaceFirst (p :: pt) [] (p :: (pt ++ x)) = x
    unfold replaceFirst
    simp only [List.isEmpty_cons, Bool.false_eq_true, if_false]
    rw [show (p :: (pt ++ x)) = (p :: pt) ++ x from rfl, isPrefixOf_append_self]
    simp only [if_true, List.nil_append]
    exact List.drop_left (p :: pt) x

theorem isSuffixOf_append_of_suffix {p f : Str} (x : Str) (h : p <:+ f) :
    p.isSuffixOf (x ++ f) = true := by
  rcases h with ⟨w, hw⟩
  exact List.isSuffixOf_iff_suffix.2 ⟨x ++ w, by rw [List.append_assoc, hw]⟩

theorem not_suffix_append_space {pat lab pre : Str} (hsp : ' ' ∉ pat)
    (hnp : ¬ pat <:+ lab) : ¬ pat <:+ (pre ++ [' ']) ++ lab := by
  intro h
  rcases List.suffix_or_suffix_of_suffix h (List.suffix_append (pre ++ [' ']) lab)
    with h' | h'
  · exact hnp h'
  · rcases h' with ⟨w, hw⟩
    cases w with
    | nil => exact hnp (hw ▸ List.suffix_refl lab)
    | cons a wt =>
      rcases h with ⟨s, hs⟩
      rw [← hw, ← List.append_assoc] at hs
      have hsw : s ++ (a :: wt) = pre ++ [' '] := List.append_cancel_right hs
      have hlast : (s ++ (a :: wt)).getLast? = some ' ' := by
        rw [hsw]
        exact List.getLast?_concat pre
      rw [List.getLast?_append_of_ne_nil s (by simp)] at hlast
      have hmem : ' ' ∈ a :: wt := List.mem_of_mem_getLast? (hlast ▸ rfl)
      exact hsp (hw ▸ List.mem_append_left lab hmem)

theorem noDoubleSpace_iff :
    ∀ l : Str, noDoubleSpace l = true ↔ ¬ ([' ', ' '] <:+: l) := by
  intro l
  induction l with
  | nil => simp [noDoubleSpace, List.infix_nil]
  | cons a rest ih =>
    cases rest with
    | nil =>
      simp only [noDoubleSpace, true_iff]
      intro h
      have := h.sublist.length_le
      simp at this
    | cons b rest2 =>
      simp only [noDoubleSpace, Bool.and_eq_true, Bool.not_eq_true',
        Bool.and_eq_false_iff, ih, List.infix_cons_iff]
      constructor
      · rintro ⟨h1, h2⟩ (hpre | hinf)
        · rcases hpre with ⟨t, ht⟩
          simp only [List.cons_append, List.nil_append, List.cons.injEq] at ht
          rcases h1 with h1 | h1
          · exact absurd (beq_iff_eq.2 ht.1.symm) (by simp [h1])
          · exact absurd (beq_iff_eq.2 ht.2.1.symm) (by simp [h1])
        · exact h2 hinf
      · intro h
        refine ⟨?_, fun hinf => h (Or.inr hinf)⟩
        by_cases ha : a = ' '
        · by_cases hb : b = ' '
          · exact absurd (Or.inl ⟨rest2, by rw [ha, hb]; rfl⟩) h
          · exact Or.inr (by simp [hb])
        · exact Or.inl (by simp [ha])

theorem not_infix_of_not_infix_two_spaces {l : Str}
    (h : ¬ ([' ', ' '] <:+: l)) : ¬ (sp3 <:+: l) ∧ ¬ (sp4 <:+: l) := by
  constructor
  · intro h3
    exact h (List.IsInfix.trans ⟨[], [' '], rfl⟩ h3)
  · intro h4
    exact h (List.IsInfix.trans ⟨[], [' ', ' '], rfl⟩ h4)

end PlexIndexer

namespace PlexIndexer

/-! ### Well-formed-name facts and line classification -/

theorem wfName_spec {f : Str} (h : wfName f = true) :
    f ≠ [] ∧ f.headD ' ' ≠ ' '
      ∧ ('\n' ∉ f ∧ '\r' ∉ f ∧ '│' ∉ f ∧ '├' ∉ f ∧ '└' ∉ f)
      ∧ ¬ ([' ', ' '] <:+: f) := by
  unfold wfName at h
  simp only [Bool.and_eq_true, Bool.not_eq_true', List.all_eq_true] at h
  obtain ⟨⟨⟨hne, hhd⟩, hall⟩, hd2⟩ := h
  refine ⟨by simpa [List.isEmpty_iff] using hne, by simpa using hhd, ?_, ?_⟩
  · refine ⟨fun hm => ?_, fun hm => ?_, fun hm => ?_, fun hm => ?_, fun hm => ?_⟩
      <;> simpa using hall _ hm
  · exact (noDoubleSpace_iff f).1 hd2

theorem wfName_no_sp3 {f : Str} (h : wfName f = true) : countPat sp3 f = 0 :=
  countPat_zero_absent
    (not_infix_of_not_infix_two_spaces (wfName_spec h).2.2.2).1

theorem wfName_count_poll {f : Str} (h : wfName f = true) : f.count '│' = 0 :=
  List.count_eq_zero.2 (wfName_spec h).2.2.1.2.2.1

/-- The three-space count of a connector-prefixed well-formed name is
zero: the four connector characters contain no space run, the junction
space is followed by a non-space, and the name has no two consecutive
spaces. -/
theorem countPat_sp3_connector {g d1 d2 : Char} {f : Str}
    (hg : g ≠ ' ') (h1 : d1 ≠ ' ') (h2 : d2 ≠ ' ')
    (hh : f.headD ' ' ≠ ' ') (hf : ¬ ([' ', ' '] <:+: f)) :
    countPat sp3 (g :: d1 :: d2 :: ' ' :: f) = 0 := by
  have hp0 : sp3.isPrefixOf (g :: d1 :: d2 :: ' ' :: f) = false := by
    simp only [sp3, List.isPrefixOf, Bool.and_eq_false_iff, beq_eq_false_iff_ne]
    exact Or.inl (fun h => hg h.symm)
  have hp1 : sp3.isPrefixOf (d1 :: d2 :: ' ' :: f) = false := by
    simp only [sp3, List.isPrefixOf, Bool.and_eq_false_iff, beq_eq_false_iff_ne]
    exact Or.inl (fun h => h1 h.symm)
  have hp2 : sp3.isPrefixOf (d2 :: ' ' :: f) = false := by
    simp only [sp3, List.isPrefixOf, Bool.and_eq_false_iff, beq_eq_false_iff_ne]
    exact Or.inl (fun h => h2 h.symm)
  have hp3 : sp3.isPrefixOf (' ' :: f) = false := by
    cases f with
    | nil => rfl
    | cons a rest =>
      simp only [List.headD_cons] at hh
      cases rest with
      | nil =>
        simp only [sp3, List.isPrefixOf, Bool.and_eq_false_iff, beq_eq_false_iff_ne]
        exact Or.inr (Or.inl (fun h => hh h.symm))
      | cons b rest2 =>
        simp only [sp3, List.isPrefixOf, Bool.and_eq_false_iff, beq_eq_false_iff_ne]
        exact Or.inr (Or.inl (fun h => hh h.symm))
  rw [countPat_cons_skip hp0, countPat_cons_skip hp1,
    countPat_cons_skip hp2, countPat_cons_skip hp3]
  exact countPat_zero_absent (not_infix_of_not_infix_two_spaces hf).1

/-- A file line `├── f` or `└── f` with a well-formed file name is
classified as a file line. -/
theorem is_line_a_file_of_wfFile {f : Str} (h : wfFile f = true) (g : Char)
    (hg : g = '├' ∨ g = '└') :
    is_line_a_file (g :: '─' :: '─' :: ' ' :: f) = true := by
  have hw : wfName f = true := (Bool.and_eq_true .. ▸ h).1
  have hk : hasKnownSuffix f = true := (Bool.and_eq_true .. ▸ h).2
  obtain ⟨hne, hhd, ⟨hn, hr, hpo, hb1, hb2⟩, h2s⟩ := wfName_spec hw
  unfold is_line_a_file
  rw [Bool.and_eq_true]
  constructor
  · rcases List.any_eq_true.1 hk with ⟨p, hp, hs⟩
    refine List.any_eq_true.2 ⟨p, hp, ?_⟩
    have : (g :: '─' :: '─' :: ' ' :: f) = [g, '─', '─', ' '] ++ f := rfl
    rw [this]
    exact isSuffixOf_append_of_suffix _ (List.isSuffixOf_iff_suffix.1 hs)
  · have hcnt : (g :: '─' :: '─' :: ' ' :: f).count '│' = 0 := by
      have : (g :: '─' :: '─' :: ' ' :: f) = [g, '─', '─', ' '] ++ f := rfl
      rw [this, List.count_append, List.count_eq_zero.2 hpo]
      rcases hg with rfl | rfl <;> rfl
    have hsp : countPat sp3 (g :: '─' :: '─' :: ' ' :: f) = 0 := by
      refine countPat_sp3_connector ?_ (by decide) (by decide) hhd h2s
      rcases hg with rfl | rfl <;> decide
    rw [hcnt, hsp]
    rfl

/-- A line starting with the vertical-continuation pattern is never a
file line (its `'│'` count is positive). -/
theorem not_file_vbar (x : Str) : is_line_a_file (vbar ++ x) = false := by
  unfold is_line_a_file
  have : (vbar ++ x).count '│' + countPat sp3 (vbar ++ x) ≠ 0 := by
    rw [vbar, List.count_append]
    have : List.count '│' ['│', '\u00A0', '\u00A0', ' '] = 1 := by decide
    omega
  cases hany : POST_FIXES.any (fun p => p.isSuffixOf (vbar ++ x))
  · rfl
  · simp only [hany, Bool.true_and]
    exact beq_eq_false_iff_ne.2 (by exact_mod_cast this)

/-- A line starting with four spaces is never a file line (its
three-space count is positive). -/
theorem not_file_sp4 (x : Str) : is_line_a_file (sp4 ++ x) = false := by
  unfold is_line_a_file
  have hpre : sp3.isPrefixOf (sp4 ++ x) = true :=
    List.isPrefixOf_iff_prefix.2 ⟨' ' :: x, rfl⟩
  have : countPat sp3 (sp4 ++ x) ≠ 0 := by
    have := countPat_pos_of_prefix (by decide) hpre
    omega
  cases hany : POST_FIXES.any (fun p => p.isSuffixOf (sp4 ++ x))
  · rfl
  · simp only [hany, Bool.true_and]
    exact beq_eq_false_iff_ne.2 (by omega)

/-- A directory-header line `├── p` or `└── p` with a well-formed label
(not ending in a recognized suffix) is not a file line. -/
theorem not_file_header {p : Str} (h : wfLabel p = true) (g : Char) :
    is_line_a_file (g :: '─' :: '─' :: ' ' :: p) = false := by
  have hk : hasKnownSuffix p = false := by
    have := (Bool.and_eq_true .. ▸ h).2
    simpa using this
  unfold is_line_a_file
  have hany : POST_FIXES.any (fun q => q.isSuffixOf (g :: '─' :: '─' :: ' ' :: p))
      = false := by
    rw [List.any_eq_false]
    intro q hq
    have hnq : ¬ q <:+ p := by
      intro hs
      have : q.isSuffixOf p = true := List.isSuffixOf_iff_suffix.2 hs
      have hfalse : POST_FIXES.any (fun r => r.isSuffixOf p) = true :=
        List.any_eq_true.2 ⟨q, hq, this⟩
      rw [hasKnownSuffix] at hk
      rw [hk] at hfalse
      exact absurd hfalse (by simp)
    have hsp : ' ' ∉ q := by
      fin_cases hq <;> decide
    intro hsfx
    have : (g :: '─' :: '─' :: ' ' :: p) = ([g, '─', '─'] ++ [' ']) ++ p := rfl
    rw [this] at hsfx
    exact not_suffix_append_space hsp hnq (List.isSuffixOf_iff_suffix.1 hsfx)
  rw [hany]
  rfl

end PlexIndexer

namespace PlexIndexer

/-! ### Connector stripping and scanning lemmas -/

theorem stripAll3_id {l : Str} (h1 : '│' ∉ l) (h2 : '├' ∉ l) (h3 : '└' ∉ l) :
    stripAll3 l = l := by
  unfold stripAll3
  rw [replaceAll_absent (not_infix_of_mem_not_mem (by decide : '│' ∈ vbar) h1),
    replaceAll_absent (not_infix_of_mem_not_mem (by decide : '├' ∈ branch1) h2),
    replaceAll_absent (not_infix_of_mem_not_mem (by decide : '└' ∈ branch2) h3)]

theorem stripBranch_id {l : Str} (h2 : '├' ∉ l) (h3 : '└' ∉ l) :
    stripBranch l = l := by
  unfold stripBranch
  rw [replaceAll_absent (not_infix_of_mem_not_mem (by decide : '├' ∈ branch1) h2),
    replaceAll_absent (not_infix_of_mem_not_mem (by decide : '└' ∈ branch2) h3)]

theorem not_mem_connector_append {c : Char} {con f : Str} (hcon : c ∉ con)
    (hf : c ∉ f) : c ∉ con ++ f := by
  intro h
  rcases List.mem_append.1 h with h | h
  · exact hcon h
  · exact hf h

theorem stripAll3_branch1 {f : Str} (h1 : '│' ∉ f) (h2 : '├' ∉ f) (h3 : '└' ∉ f) :
    stripAll3 (branch1 ++ f) = f := by
  unfold stripAll3
  rw [replaceAll_absent (not_infix_of_mem_not_mem (by decide : '│' ∈ vbar)
      (not_mem_connector_append (by decide) h1)),
    replaceAll_cons_pat (by decide),
    replaceAll_absent (not_infix_of_mem_not_mem (by decide : '├' ∈ branch1) h2),
    replaceAll_absent (not_infix_of_mem_not_mem (by decide : '└' ∈ branch2) h3)]

theorem stripAll3_branch2 {f : Str} (h1 : '│' ∉ f) (h2 : '├' ∉ f) (h3 : '└' ∉ f) :
    stripAll3 (branch2 ++ f) = f := by
  unfold stripAll3
  rw [replaceAll_absent (not_infix_of_mem_not_mem (by decide : '│' ∈ vbar)
      (not_mem_connector_append (by decide) h1)),
    replaceAll_absent (not_infix_of_mem_not_mem (by decide : '├' ∈ branch1)
      (not_mem_connector_append (by decide) h2)),
    replaceAll_cons_pat (by decide),
    replaceAll_absent (not_infix_of_mem_not_mem (by decide : '└' ∈ branch2) h3)]

theorem stripBranch_branch1 {p : Str} (h2 : '├' ∉ p) (h3 : '└' ∉ p) :
    stripBranch (branch1 ++ p) = p := by
  unfold stripBranch
  rw [replaceAll_cons_pat (by decide),
    replaceAll_absent (not_infix_of_mem_not_mem (by decide : '├' ∈ branch1) h2),
    replaceAll_absent (not_infix_of_mem_not_mem (by decide : '└' ∈ branch2) h3)]

theorem stripBranch_branch2 {p : Str} (h2 : '├' ∉ p) (h3 : '└' ∉ p) :
    stripBranch (branch2 ++ p) = p := by
  unfold stripBranch
  rw [replaceAll_absent (not_infix_of_mem_not_mem (by decide : '├' ∈ branch1)
      (not_mem_connector_append (by decide) h2)),
    replaceAll_cons_pat (by decide),
    replaceAll_absent (not_infix_of_mem_not_mem (by decide : '└' ∈ branch2) h3)]

theorem head_ne_no_pre {pat l : Str} {a b : Char} {pt lt : List Char}
    (hpat : pat = a :: pt) (hl : l = b :: lt) (hne : a ≠ b) :
    pat.isPrefixOf l = false := by
  subst hpat hl
  simp only [List.isPrefixOf, Bool.and_eq_false_iff, beq_eq_false_iff_ne]
  exact Or.inl hne

theorem unPoll_vbar (x : Str) : unPoll (vbar ++ x) = x := by
  unfold unPoll
  rw [if_pos (isPrefixOf_append_self vbar x)]
  exact replaceFirst_append_pat (by decide)

theorem unPoll_sp4 (x : Str) : unPoll (sp4 ++ x) = sp4 ++ x := by
  unfold unPoll
  rw [head_ne_no_pre (rfl : vbar = '│' :: ['\u00A0', '\u00A0', ' '])
      (rfl : sp4 ++ x = ' ' :: ([' ', ' ', ' '] ++ x)) (by decide)]
  rfl

theorem branchStart_branch1 (p : Str) : branchStart (branch1 ++ p) = true := by
  unfold branchStart
  rw [Bool.or_eq_true]
  exact Or.inl (List.isPrefixOf_iff_prefix.2 ⟨' ' :: p, rfl⟩)

theorem branchStart_branch2 (p : Str) : branchStart (branch2 ++ p) = true := by
  unfold branchStart
  rw [Bool.or_eq_true]
  exact Or.inr (List.isPrefixOf_iff_prefix.2 ⟨' ' :: p, rfl⟩)

theorem branchStart_vbar (x : Str) : branchStart (vbar ++ x) = false := by
  unfold branchStart
  rw [head_ne_no_pre (rfl : branch1s = '├' :: ['─', '─'])
      (rfl : vbar ++ x = '│' :: (['\u00A0', '\u00A0', ' '] ++ x)) (by decide),
    head_ne_no_pre (rfl : branch2s = '└' :: ['─', '─'])
      (rfl : vbar ++ x = '│' :: (['\u00A0', '\u00A0', ' '] ++ x)) (by decide)]
  rfl

theorem branchStart_sp4 (x : Str) : branchStart (sp4 ++ x) = false := by
  unfold branchStart
  rw [head_ne_no_pre (rfl : branch1s = '├' :: ['─', '─'])
      (rfl : sp4 ++ x = ' ' :: ([' ', ' ', ' '] ++ x)) (by decide),
    head_ne_no_pre (rfl : branch2s = '└' :: ['─', '─'])
      (rfl : sp4 ++ x = ' ' :: ([' ', ' ', ' '] ++ x)) (by decide)]
  rfl

theorem breakLine_vbar (x : Str) : breakLine (vbar ++ x) = false := by
  unfold breakLine
  rw [branchStart_vbar]
  rfl

theorem breakLine_sp4 (x : Str) : breakLine (sp4 ++ x) = false := by
  unfold breakLine
  rw [branchStart_sp4]
  rfl

theorem breakLine_branch1 {p : Str} (h : '│' ∉ p) :
    breakLine (branch1 ++ p) = true := by
  unfold breakLine
  rw [branchStart_branch1, List.count_append, List.count_eq_zero.2 h]
  rfl

theorem breakLine_branch2 {p : Str} (h : '│' ∉ p) :
    breakLine (branch2 ++ p) = true := by
  unfold breakLine
  rw [branchStart_branch2, List.count_append, List.count_eq_zero.2 h]
  rfl

/-! ### Tree-structure lemmas -/

/-- Strong induction over `FileTree` via its children. -/
theorem treeInduction {motive : FileTree → Prop}
    (h : ∀ p files ds, (∀ d ∈ ds, motive d) → motive ⟨p, files, ds⟩) :
    ∀ t, motive t
  | ⟨p, files, ds⟩ => h p files ds (fun d _hd => treeInduction h d)
termination_by t => sizeOf t
decreasing_by
  have hlt := List.sizeOf_lt_of_mem _hd
  simp only [FileTree.mk.sizeOf_spec]
  omega

theorem fmtLines_true_eq (t : FileTree) :
    fmtLines t true = t.path :: fmtLines t false := by
  cases t with
  | mk p files ds => simp [fmtLines]

theorem mem_fileLinesOf {files : List Str} {l : Str} :
    l ∈ fileLinesOf files → ∃ f ∈ files, l = branch1 ++ f ∨ l = branch2 ++ f := by
  induction files with
  | nil => intro h; exact absurd h (List.not_mem_nil l)
  | cons f rest ih =>
    intro h
    cases rest with
    | nil =>
      simp only [fileLinesOf, List.mem_singleton] at h
      exact ⟨f, List.mem_singleton.2 rfl, Or.inr h⟩
    | cons f2 rest2 =>
      have heq : fileLinesOf (f :: f2 :: rest2)
          = (branch1 ++ f) :: fileLinesOf (f2 :: rest2) := rfl
      rw [heq] at h
      rcases List.mem_cons.1 h with h | h
      · exact ⟨f, List.mem_cons_self f _, Or.inl h⟩
      · rcases ih h with ⟨f', hm, he⟩
        exact ⟨f', List.mem_cons_of_mem f hm, he⟩

theorem mem_orBlank {ls : List Str} {x : Str} (h : x ∈ orBlank ls) :
    x = [] ∨ x ∈ ls := by
  unfold orBlank at h
  by_cases he : ls.isEmpty
  · rw [if_pos he] at h
    exact Or.inl (List.mem_singleton.1 h)
  · rw [if_neg he] at h
    exact Or.inr h

theorem orBlank_ne_nil (ls : List Str) : orBlank ls ≠ [] := by
  unfold orBlank
  by_cases he : ls.isEmpty
  · rw [if_pos he]; simp
  · rw [if_neg he]
    cases ls with
    | nil => simp at he
    | cons a rest => simp

theorem mem_dirLines {ds : List FileTree} {l : Str} :
    l ∈ dirLines ds → ∃ d ∈ ds, l = branch1 ++ d.path ∨ l = branch2 ++ d.path
      ∨ ∃ x ∈ orBlank (fmtLines d false), l = vbar ++ x ∨ l = sp4 ++ x := by
  induction ds with
  | nil => intro h; exact absurd h (List.not_mem_nil l)
  | cons d rest ih =>
    intro h
    cases rest with
    | nil =>
      rw [dirLines] at h
      rcases List.mem_cons.1 h with h | h
      · exact ⟨d, List.mem_singleton.2 rfl, Or.inr (Or.inl h)⟩
      · rcases List.mem_map.1 h with ⟨x, hx, hxe⟩
        exact ⟨d, List.mem_singleton.2 rfl,
          Or.inr (Or.inr ⟨x, hx, Or.inr hxe.symm⟩)⟩
    | cons d2 rest2 =>
      have heq : dirLines (d :: d2 :: rest2)
          = (branch1 ++ d.path)
            :: ((orBlank (fmtLines d false)).map (fun x => vbar ++ x)
              ++ dirLines (d2 :: rest2)) := rfl
      rw [heq] at h
      rcases List.mem_cons.1 h with h | h
      · exact ⟨d, List.mem_cons_self d _, Or.inl h⟩
      · rcases List.mem_append.1 h with h | h
        · rcases List.mem_map.1 h with ⟨x, hx, hxe⟩
          exact ⟨d, List.mem_cons_self d _,
            Or.inr (Or.inr ⟨x, hx, Or.inl hxe.symm⟩)⟩
        · rcases ih h with ⟨d', hm, he⟩
          exact ⟨d', List.mem_cons_of_mem d hm, he⟩

theorem wfbAux_forall {ds : List FileTree} :
    wfbAux ds = true ↔ ∀ d ∈ ds, wfb d = true := by
  induction ds with
  | nil => simp [wfbAux]
  | cons d rest ih =>
    rw [wfbAux, Bool.and_eq_true, ih]
    constructor
    · rintro ⟨h1, h2⟩ x hx
      rcases List.mem_cons.1 hx with rfl | hx
      · exact h1
      · exact h2 x hx
    · intro h
      exact ⟨h d (List.mem_cons_self d rest),
        fun x hx => h x (List.mem_cons_of_mem d hx)⟩

theorem wfb_parts {p : Str} {files : List Str} {ds : List FileTree}
    (h : wfb ⟨p, files, ds⟩ = true) :
    wfLabel p = true ∧ (∀ f ∈ files, wfFile f = true) ∧ ∀ d ∈ ds, wfb d = true := by
  rw [wfb, Bool.and_eq_true, Bool.and_eq_true] at h
  exact ⟨h.1.1, List.all_eq_true.1 h.1.2, wfbAux_forall.1 h.2⟩

end PlexIndexer

namespace PlexIndexer

/-! ### Cleanliness and size of the formatted lines -/

theorem wfb_label {d : FileTree} (h : wfb d = true) : wfLabel d.path = true := by
  cases d with
  | mk p files ds => exact (wfb_parts h).1

theorem wfb_children {d : FileTree} (h : wfb d = true) :
    ∀ e ∈ d.directories, wfb e = true := by
  cases d with
  | mk p files ds => exact (wfb_parts h).2.2

theorem fmtLines_unfold (p : Str) (files : List Str) (ds : List FileTree) (b : Bool) :
    fmtLines ⟨p, files, ds⟩ b
      = (if b then [p] else []) ++ (fileLinesOf files ++ dirLines ds) := by
  cases b <;> simp [fmtLines]

/-- Every line emitted by the formatter for a well-formed tree is free
of newline and carriage-return characters and non-empty. -/
theorem fmtLines_clean :
    ∀ t, wfb t = true →
      ∀ (b : Bool), ∀ l ∈ fmtLines t b, '\n' ∉ l ∧ '\r' ∉ l ∧ l ≠ [] := by
  refine treeInduction (motive := fun t => wfb t = true →
    ∀ (b : Bool), ∀ l ∈ fmtLines t b, '\n' ∉ l ∧ '\r' ∉ l ∧ l ≠ []) ?_
  intro p files ds ih hwf b l hl
  obtain ⟨hp, hfs, hds⟩ := wfb_parts hwf
  rw [fmtLines_unfold] at hl
  have hname : ∀ f : Str, wfName f = true → '\n' ∉ f ∧ '\r' ∉ f ∧ f ≠ [] := by
    intro f hf
    obtain ⟨hne, _, ⟨hn, hr, _⟩, _⟩ := wfName_spec hf
    exact ⟨hn, hr, hne⟩
  rcases List.mem_append.1 hl with hl | hl
  · cases b with
    | false => exact absurd hl (List.not_mem_nil l)
    | true =>
      rw [if_pos rfl, List.mem_singleton] at hl
      subst hl
      exact hname l ((Bool.and_eq_true .. ▸ hp).1)
  · rcases List.mem_append.1 hl with hl | hl
    · rcases mem_fileLinesOf hl with ⟨f, hfm, he⟩
      have hf := hname f ((Bool.and_eq_true .. ▸ hfs f hfm).1)
      rcases he with rfl | rfl
      · exact ⟨not_mem_connector_append (by decide) hf.1,
          not_mem_connector_append (by decide) hf.2.1, by simp [branch1]⟩
      · exact ⟨not_mem_connector_append (by decide) hf.1,
          not_mem_connector_append (by decide) hf.2.1, by simp [branch2]⟩
    · rcases mem_dirLines hl with ⟨d, hdm, he⟩
      have hdw := hds d hdm
      have hdl := hname d.path ((Bool.and_eq_true .. ▸ wfb_label hdw).1)
      rcases he with rfl | rfl | ⟨x, hx, hxe⟩
      · exact ⟨not_mem_connector_append (by decide) hdl.1,
          not_mem_connector_append (by decide) hdl.2.1, by simp [branch1]⟩
      · exact ⟨not_mem_connector_append (by decide) hdl.1,
          not_mem_connector_append (by decide) hdl.2.1, by simp [branch2]⟩
      · have hxclean : '\n' ∉ x ∧ '\r' ∉ x := by
          rcases mem_orBlank hx with rfl | hx'
          · exact ⟨List.not_mem_nil _, List.not_mem_nil _⟩
          · have := ih d hdm hdw false x hx'
            exact ⟨this.1, this.2.1⟩
        rcases hxe with rfl | rfl
        · exact ⟨not_mem_connector_append (by decide) hxclean.1,
            not_mem_connector_append (by decide) hxclean.2, by simp [vbar]⟩
        · exact ⟨not_mem_connector_append (by decide) hxclean.1,
            not_mem_connector_append (by decide) hxclean.2, by simp [sp4]⟩

theorem orBlank_length (ls : List Str) :
    ls.length ≤ (orBlank ls).length ∧ 1 ≤ (orBlank ls).length := by
  unfold orBlank
  cases ls with
  | nil => simp
  | cons a rest => simp

theorem dirLines_length {ds : List FileTree}
    (h : ∀ d ∈ ds, ht d ≤ (fmtLines d true).length) :
    htAux ds ≤ (dirLines ds).length := by
  induction ds with
  | nil => simp [htAux, dirLines]
  | cons d rest ih =>
    have hd := h d (List.mem_cons_self d rest)
    rw [fmtLines_true_eq] at hd
    have hlen := orBlank_length (fmtLines d false)
    cases rest with
    | nil =>
      rw [dirLines, htAux]
      simp only [List.length_cons, List.length_map, htAux, Nat.max_zero]
      simp only [List.length_cons] at hd
      omega
    | cons d2 rest2 =>
      have heq : dirLines (d :: d2 :: rest2)
          = (branch1 ++ d.path)
            :: ((orBlank (fmtLines d false)).map (fun x => vbar ++ x)
              ++ dirLines (d2 :: rest2)) := rfl
      rw [heq]
      have hrest := ih (fun e he => h e (List.mem_cons_of_mem d he))
      rw [htAux]
      simp only [List.length_cons, List.length_append, List.length_map]
      simp only [List.length_cons] at hd
      rw [Nat.max_le]
      constructor
      · omega
      · omega

theorem fmtLines_length_ge_ht : ∀ t, ht t ≤ (fmtLines t true).length := by
  refine treeInduction (motive := fun t => ht t ≤ (fmtLines t true).length) ?_
  intro p files ds ih
  have heq : fmtLines ⟨p, files, ds⟩ true = p :: (fileLinesOf files ++ dirLines ds) := by
    rw [fmtLines_unfold]
    rfl
  rw [heq, ht]
  have hdl := dirLines_length ih
  simp only [List.length_cons, List.length_append]
  omega

end PlexIndexer

namespace PlexIndexer

/-! ### Split and join lemmas -/

theorem joinNL_cons₂ (a b : Str) (rest : List Str) :
    joinNL (a :: b :: rest) = a ++ '\n' :: joinNL (b :: rest) := by
  simp [joinNL, List.intercalate, List.intersperse]

theorem joinNL_single (a : Str) : joinNL [a] = a := by
  simp [joinNL, List.intercalate, List.intersperse]

theorem splitOn_single_of_not_mem {c : Char} {l : Str} (h : c ∉ l) :
    l.splitOn c = [l] := by
  unfold List.splitOn
  refine List.splitOnP_eq_single _ _ (fun x hx hb => ?_)
  exact h (beq_iff_eq.1 hb ▸ hx)

theorem modifyHead_append_left {α : Type} (f : α → α) {l₁ : List α} (l₂ : List α)
    (h : l₁ ≠ []) : (l₁ ++ l₂).modifyHead f = l₁.modifyHead f ++ l₂ := by
  cases l₁ with
  | nil => exact absurd rfl h
  | cons a rest => rfl

theorem splitOnP_append_cons {p : Char → Bool} {c : Char} (hc : p c = true) :
    ∀ x y : Str, (x ++ c :: y).splitOnP p = x.splitOnP p ++ y.splitOnP p := by
  intro x
  induction x with
  | nil =>
    intro y
    rw [List.nil_append, List.splitOnP_cons, if_pos hc]
    rfl
  | cons a xt ih =>
    intro y
    rw [List.cons_append, List.splitOnP_cons, List.splitOnP_cons]
    by_cases hpa : p a = true
    · rw [if_pos hpa, if_pos hpa, ih y]
      rfl
    · rw [if_neg hpa, if_neg hpa, ih y,
        modifyHead_append_left _ _ (List.splitOnP_ne_nil p xt)]

theorem splitOn_append_cons (c : Char) (x y : Str) :
    (x ++ c :: y).splitOn c = x.splitOn c ++ y.splitOn c := by
  unfold List.splitOn
  exact splitOnP_append_cons (p := fun z => z == c) (by simp) x y

theorem splitOn_joinNL : ∀ {ls : List Str}, ls ≠ [] →
    (joinNL ls).splitOn '\n' = (ls.map (fun l => l.splitOn '\n')).flatten := by
  intro ls
  induction ls with
  | nil => intro h; exact absurd rfl h
  | cons a rest ih =>
    intro _
    cases rest with
    | nil => simp [joinNL_single]
    | cons b rest2 =>
      rw [joinNL_cons₂, splitOn_append_cons, ih (by simp)]
      simp

/-! ### Relating the chunked formatter output to its flat lines -/

theorem fileLinesOf_ne_nil {files : List Str} (h : files ≠ []) :
    fileLinesOf files ≠ [] := by
  cases files with
  | nil => exact absurd rfl h
  | cons f rest => cases rest <;> simp [fileLinesOf]

theorem dirLines_ne_nil {ds : List FileTree} (h : ds ≠ []) : dirLines ds ≠ [] := by
  cases ds with
  | nil => exact absurd rfl h
  | cons d rest => cases rest <;> simp [dirLines]

theorem dirChunks_nil_iff {ds : List FileTree} : dirChunks ds = [] ↔ ds = [] := by
  cases ds with
  | nil => simp [dirChunks]
  | cons d rest => cases rest <;> simp [dirChunks]

theorem fileLinesOf_clean {files : List Str} (hfs : ∀ f ∈ files, wfFile f = true) :
    ∀ l ∈ fileLinesOf files, '\n' ∉ l := by
  intro l hl
  rcases mem_fileLinesOf hl with ⟨f, hfm, he⟩
  have hw := (Bool.and_eq_true .. ▸ hfs f hfm).1
  have hn := (wfName_spec hw).2.2.1
  rcases he with rfl | rfl
  · exact not_mem_connector_append (by decide) hn.1
  · exact not_mem_connector_append (by decide) hn.1

/-- Splitting the chunked per-directory output on newlines yields the
flat directory lines, given the child-level induction hypotheses. -/
theorem dirChunks_split {ds : List FileTree}
    (hwf : ∀ d ∈ ds, wfb d = true)
    (hIH : ∀ d ∈ ds, (to_file_tree d false).splitOn '\n' = orBlank (fmtLines d false)) :
    ((dirChunks ds).map (fun l => l.splitOn '\n')).flatten = dirLines ds := by
  induction ds with
  | nil => rfl
  | cons d rest ih =>
    have hd := hwf d (List.mem_cons_self d rest)
    have hdIH := hIH d (List.mem_cons_self d rest)
    have hsubclean : ∀ x ∈ orBlank (fmtLines d false), '\n' ∉ x := by
      intro x hx
      rcases mem_orBlank hx with rfl | hx'
      · exact List.not_mem_nil _
      · exact (fmtLines_clean d hd false x hx').1
    have hlabel := wfName_spec ((Bool.and_eq_true .. ▸ wfb_label hd).1)
    have hsplitHeader1 : (branch1 ++ d.path).splitOn '\n' = [branch1 ++ d.path] :=
      splitOn_single_of_not_mem
        (not_mem_connector_append (by decide) hlabel.2.2.1.1)
    have hsplitHeader2 : (branch2 ++ d.path).splitOn '\n' = [branch2 ++ d.path] :=
      splitOn_single_of_not_mem
        (not_mem_connector_append (by decide) hlabel.2.2.1.1)
    have hchunk : ∀ pre : Str, '\n' ∉ pre →
        (joinNL ((((to_file_tree d false).splitOn '\n')).map
          (fun x => pre ++ x))).splitOn '\n'
          = (orBlank (fmtLines d false)).map (fun x => pre ++ x) := by
      intro pre hpre
      rw [hdIH]
      have : joinNL ((orBlank (fmtLines d false)).map (fun x => pre ++ x))
          = ['\n'].intercalate ((orBlank (fmtLines d false)).map (fun x => pre ++ x)) := rfl
      rw [this]
      refine List.splitOn_intercalate _ '\n' ?_ ?_
      · intro l hl
        rcases List.mem_map.1 hl with ⟨x, hx, rfl⟩
        exact not_mem_connector_append hpre (hsubclean x hx)
      · simp [orBlank_ne_nil]
    cases rest with
    | nil =>
      show ((dirChunks [d]).map (fun l => l.splitOn '\n')).flatten = dirLines [d]
      rw [dirChunks, dirLines]
      simp only [List.map_cons, List.map_nil, List.flatten_cons, List.flatten_nil]
      rw [hsplitHeader2, hchunk sp4 (by decide)]
      simp
    | cons d2 rest2 =>
      have heqC : dirChunks (d :: d2 :: rest2)
          = (branch1 ++ d.path)
            :: joinNL (((to_file_tree d false).splitOn '\n').map (fun x => vbar ++ x))
            :: dirChunks (d2 :: rest2) := rfl
      have heqL : dirLines (d :: d2 :: rest2)
          = (branch1 ++ d.path)
            :: ((orBlank (fmtLines d false)).map (fun x => vbar ++ x)
              ++ dirLines (d2 :: rest2)) := rfl
      rw [heqC, heqL]
      simp only [List.map_cons, List.flatten_cons]
      rw [hsplitHeader1, hchunk vbar (by decide),
        ih (fun e he => hwf e (List.mem_cons_of_mem d he))
           (fun e he => hIH e (List.mem_cons_of_mem d he))]
      simp

/-- Splitting the formatter's output on newlines yields the flat line
list (with the empty-tree wrinkle). -/
theorem splitOn_to_file_tree :
    ∀ t, wfb t = true → ∀ b : Bool,
      (to_file_tree t b).splitOn '\n' = orBlank (fmtLines t b) := by
  refine treeInduction (motive := fun t => wfb t = true → ∀ b : Bool,
    (to_file_tree t b).splitOn '\n' = orBlank (fmtLines t b)) ?_
  intro p files ds ih hwf b
  obtain ⟨hp, hfs, hds⟩ := wfb_parts hwf
  have hto : to_file_tree ⟨p, files, ds⟩ b
      = joinNL ((if b then [p] else []) ++ (fileLinesOf files ++ dirChunks ds)) := by
    cases b <;> simp [to_file_tree]
  by_cases hempty : files = [] ∧ ds = [] ∧ b = false
  · obtain ⟨rfl, rfl, rfl⟩ := hempty
    show (to_file_tree ⟨p, [], []⟩ false).splitOn '\n'
        = orBlank (fmtLines ⟨p, [], []⟩ false)
    have h1 : to_file_tree ⟨p, [], []⟩ false = [] := rfl
    have h2 : fmtLines ⟨p, [], []⟩ false = [] := rfl
    rw [h1, h2]
    rfl
  · have hchunksne : (if b then [p] else []) ++ (fileLinesOf files ++ dirChunks ds) ≠ [] := by
      intro hnil
      rcases List.append_eq_nil.1 hnil with ⟨h1, h2⟩
      rcases List.append_eq_nil.1 h2 with ⟨h3, h4⟩
      cases b with
      | true => exact absurd h1 (by simp)
      | false =>
        refine hempty ⟨?_, dirChunks_nil_iff.1 h4, rfl⟩
        by_contra hne
        exact fileLinesOf_ne_nil hne h3
    rw [hto, splitOn_joinNL hchunksne]
    have hfmtne : fmtLines ⟨p, files, ds⟩ b ≠ [] := by
      rw [fmtLines_unfold]
      intro hnil
      rcases List.append_eq_nil.1 hnil with ⟨h1, h2⟩
      rcases List.append_eq_nil.1 h2 with ⟨h3, h4⟩
      cases b with
      | true => exact absurd h1 (by simp)
      | false =>
        refine hempty ⟨?_, ?_, rfl⟩
        · by_contra hne
          exact fileLinesOf_ne_nil hne h3
        · by_contra hne
          exact dirLines_ne_nil hne h4
    have horb : orBlank (fmtLines ⟨p, files, ds⟩ b) = fmtLines ⟨p, files, ds⟩ b := by
      unfold orBlank
      rw [if_neg]
      simpa [List.isEmpty_iff] using hfmtne
    rw [horb, fmtLines_unfold]
    rw [List.map_append, List.map_append, List.flatten_append, List.flatten_append]
    have hroot : ((if b then [p] else ([] : List Str)).map
        (fun l => l.splitOn '\n')).flatten = (if b then [p] else []) := by
      cases b with
      | true =>
        simp only [if_true, List.map_cons, List.map_nil, List.flatten_cons,
          List.flatten_nil, List.append_nil]
        rw [splitOn_single_of_not_mem
          (wfName_spec ((Bool.and_eq_true .. ▸ hp).1)).2.2.1.1]
      | false => rfl
    have hsingl : ∀ m : List Str, (m.map (fun a => [a])).flatten = m := by
      intro m
      induction m with
      | nil => rfl
      | cons x rest ihx =>
        simp only [List.map_cons, List.flatten_cons, ihx]
        rfl
    have hfiles : ((fileLinesOf files).map (fun l => l.splitOn '\n')).flatten
        = fileLinesOf files := by
      have hone : ∀ l ∈ fileLinesOf files, l.splitOn '\n' = [l] := by
        intro l hl
        exact splitOn_single_of_not_mem (fileLinesOf_clean hfs l hl)
      rw [List.map_congr_left hone, hsingl]
    rw [hroot, hfiles, dirChunks_split hds (fun d hd => ih d hd (hds d hd) false)]

end PlexIndexer

namespace PlexIndexer

/-! ### rustLines on clean line lists -/

theorem rustLines_eq (s : Str) :
    rustLines s
      = (if (s.splitOn '\n').getLast? == some ([] : Str)
          then (s.splitOn '\n').dropLast else s.splitOn '\n').map
        (fun l => if l.getLast? == some '\r' then l.dropLast else l) := rfl

theorem stripCR_map_id {m : List Str} (hm : ∀ l ∈ m, '\r' ∉ l) :
    (m.map (fun l => if l.getLast? == some '\r' then l.dropLast else l)) = m := by
  have hid : ∀ l ∈ m, (if l.getLast? == some '\r' then l.dropLast else l) = l := by
    intro l hl
    rw [if_neg]
    intro hb
    cases hlast : l.getLast? with
    | none => rw [hlast] at hb; exact absurd hb (by simp)
    | some x =>
      rw [hlast] at hb
      have hx : x = '\r' := by simpa using hb
      exact hm l hl (hx ▸ List.mem_of_mem_getLast? (hlast ▸ rfl))
  rw [List.map_congr_left hid]
  exact List.map_id m

theorem rustLines_joinNL_clean {ls : List Str} (hne : ls ≠ [])
    (hclean : ∀ l ∈ ls, '\n' ∉ l ∧ '\r' ∉ l) :
    rustLines (joinNL ls)
      = if ls.getLast? == some ([] : Str) then ls.dropLast else ls := by
  have hs : (joinNL ls).splitOn '\n' = ls := by
    have heq : joinNL ls = ['\n'].intercalate ls := rfl
    rw [heq]
    exact List.splitOn_intercalate ls '\n' (fun l hl => (hclean l hl).1) hne
  rw [rustLines_eq, hs]
  by_cases hlast : ls.getLast? == some ([] : Str)
  · rw [if_pos hlast]
    exact stripCR_map_id (fun l hl => (hclean l ((List.dropLast_sublist ls).subset hl)).2)
  · rw [if_neg hlast]
    exact stripCR_map_id (fun l hl => (hclean l hl).2)

theorem rustLines_to_file_tree {t : FileTree} (h : wfb t = true) :
    rustLines (to_file_tree t true) = fmtLines t true := by
  have hsplit := splitOn_to_file_tree t h true
  have hne : fmtLines t true ≠ [] := by rw [fmtLines_true_eq]; simp
  have horb : orBlank (fmtLines t true) = fmtLines t true := by
    unfold orBlank
    rw [if_neg]
    simpa [List.isEmpty_iff] using hne
  rw [rustLines_eq, hsplit, horb]
  have hlast : ((fmtLines t true).getLast? == some ([] : Str)) = false := by
    cases hl : (fmtLines t true).getLast? with
    | none => rfl
    | some x =>
      have hx : x ∈ fmtLines t true := List.mem_of_mem_getLast? (hl ▸ rfl)
      have := (fmtLines_clean t h true x hx).2.2
      simpa using this
  rw [hlast]
  simp only [Bool.false_eq_true, if_false]
  exact stripCR_map_id (fun l hl => (fmtLines_clean t h true l hl).2.1)

/-! ### Block-scanning lemmas -/

theorem branchStart_of_breakLine {l : Str} (h : breakLine l = true) :
    branchStart l = true := by
  unfold breakLine at h
  exact (Bool.and_eq_true .. ▸ h).1

theorem blocksGo_none_cons (l : Str) (rest : List Str) :
    blocksGo (l :: rest) none
      = if branchStart l then blocksGo rest (some (stripBranch l, []))
        else blocksGo rest none := rfl

theorem blocksGo_some_cons (l : Str) (rest : List Str) (h0 : Str) (body : List Str) :
    blocksGo (l :: rest) (some (h0, body))
      = if breakLine l then (h0, body) :: blocksGo rest (some (stripBranch l, []))
        else blocksGo rest (some (h0, body ++ [unPoll l])) := rfl

theorem blocksGo_body (h0 : Str) :
    ∀ (body acc more : List Str),
      (∀ l ∈ body, breakLine l = false) →
      (more = [] ∨ ∃ m0 mrest, more = m0 :: mrest ∧ breakLine m0 = true) →
      blocksGo (body ++ more) (some (h0, acc))
        = (h0, acc ++ body.map unPoll) :: blocksGo more none := by
  intro body
  induction body with
  | nil =>
    intro acc more _ hm
    rcases hm with rfl | ⟨m0, mrest, rfl, hbrk⟩
    · simp [blocksGo]
    · rw [List.nil_append, blocksGo_some_cons, if_pos hbrk, blocksGo_none_cons,
        if_pos (branchStart_of_breakLine hbrk)]
      simp
  | cons b bt ih =>
    intro acc more hb hm
    rw [List.cons_append, blocksGo_some_cons,
      if_neg (by rw [hb b (List.mem_cons_self b bt)]; simp),
      ih (acc ++ [unPoll b]) more (fun l hl => hb l (List.mem_cons_of_mem b hl)) hm]
    simp

/-! ### The four-space adjustment -/

theorem adjust4_id {h0 : Str} {body : List Str}
    (hb : sp4.isPrefixOf (body.headD []) = false) :
    adjust4 (h0 :: body) = h0 :: body := by
  cases body with
  | nil => rfl
  | cons b bt =>
    simp only [List.headD_cons] at hb
    have hstep : adjust4 (h0 :: b :: bt)
        = if sp4.isPrefixOf b then (h0 :: b :: bt).map (replaceFirst sp4 [])
          else h0 :: b :: bt := rfl
    rw [hstep, hb]
    simp

theorem adjust4_strip {h0 : Str} {sub : List Str}
    (hh : ¬ ([' ', ' '] <:+: h0)) (hsubne : sub ≠ []) :
    adjust4 (h0 :: sub.map (fun x => sp4 ++ x)) = h0 :: sub := by
  cases sub with
  | nil => exact absurd rfl hsubne
  | cons s st =>
    show adjust4 (h0 :: (sp4 ++ s) :: st.map (fun x => sp4 ++ x)) = h0 :: s :: st
    have hstep : adjust4 (h0 :: (sp4 ++ s) :: st.map (fun x => sp4 ++ x))
        = if sp4.isPrefixOf (sp4 ++ s)
          then (h0 :: (sp4 ++ s) :: st.map (fun x => sp4 ++ x)).map (replaceFirst sp4 [])
          else h0 :: (sp4 ++ s) :: st.map (fun x => sp4 ++ x) := rfl
    rw [hstep, isPrefixOf_append_self]
    simp only [if_true, List.map_cons]
    rw [replaceFirst_absent (by decide)
        (fun hinf => (not_infix_of_not_infix_two_spaces hh).2 hinf),
      replaceFirst_append_pat (by decide)]
    have : ∀ x ∈ st, replaceFirst sp4 [] (sp4 ++ x) = x := by
      intro x _
      exact replaceFirst_append_pat (by decide)
    rw [List.map_map]
    have h2 : (st.map (fun x => replaceFirst sp4 [] (sp4 ++ x))) = st := by
      rw [List.map_congr_left this]
      exact List.map_id st
    have h3 : (replaceFirst sp4 [] ∘ fun x => sp4 ++ x)
        = fun x => replaceFirst sp4 [] (sp4 ++ x) := rfl
    rw [h3, h2]

/-- The first line of a tree's (non-root) rendering never starts with
four spaces: it is a connector line or the blank line of an empty
tree. -/
theorem orBlank_head_not_sp4 (d : FileTree) :
    sp4.isPrefixOf ((orBlank (fmtLines d false)).headD []) = false := by
  cases d with
  | mk p files ds =>
    have hfalse : fmtLines ⟨p, files, ds⟩ false = fileLinesOf files ++ dirLines ds := by
      rw [fmtLines_unfold]
      rfl
    rw [hfalse]
    cases files with
    | cons f rest =>
      cases rest with
      | nil =>
        show sp4.isPrefixOf ((orBlank ([branch2 ++ f] ++ dirLines ds)).headD []) = false
        rw [show orBlank ([branch2 ++ f] ++ dirLines ds)
            = (branch2 ++ f) :: dirLines ds from rfl]
        exact head_ne_no_pre (rfl : sp4 = ' ' :: [' ', ' ', ' '])
          (rfl : ((branch2 ++ f) :: dirLines ds).headD []
            = '└' :: ('─' :: '─' :: ' ' :: f)) (by decide)
      | cons f2 rest2 =>
        show sp4.isPrefixOf ((orBlank ((branch1 ++ f)
          :: fileLinesOf (f2 :: rest2) ++ dirLines ds)).headD []) = false
        rw [show orBlank ((branch1 ++ f) :: fileLinesOf (f2 :: rest2) ++ dirLines ds)
            = (branch1 ++ f) :: (fileLinesOf (f2 :: rest2) ++ dirLines ds) from rfl]
        exact head_ne_no_pre (rfl : sp4 = ' ' :: [' ', ' ', ' '])
          (rfl : ((branch1 ++ f) :: (fileLinesOf (f2 :: rest2) ++ dirLines ds)).headD []
            = '├' :: ('─' :: '─' :: ' ' :: f)) (by decide)
    | nil =>
      cases ds with
      | nil => rfl
      | cons d2 rest2 =>
        cases rest2 with
        | nil =>
          show sp4.isPrefixOf ((orBlank ([] ++ dirLines [d2])).headD []) = false
          rw [show orBlank ([] ++ dirLines [d2])
              = (branch2 ++ d2.path)
                :: (orBlank (fmtLines d2 false)).map (fun x => sp4 ++ x) from rfl]
          exact head_ne_no_pre (rfl : sp4 = ' ' :: [' ', ' ', ' '])
            (rfl : ((branch2 ++ d2.path)
              :: (orBlank (fmtLines d2 false)).map (fun x => sp4 ++ x)).headD []
              = '└' :: ('─' :: '─' :: ' ' :: d2.path)) (by decide)
        | cons d3 rest3 =>
          show sp4.isPrefixOf ((orBlank ([] ++ dirLines (d2 :: d3 :: rest3))).headD [])
            = false
          rw [show orBlank ([] ++ dirLines (d2 :: d3 :: rest3))
              = (branch1 ++ d2.path)
                :: ((orBlank (fmtLines d2 false)).map (fun x => vbar ++ x)
                  ++ dirLines (d3 :: rest3)) from rfl]
          exact head_ne_no_pre (rfl : sp4 = ' ' :: [' ', ' ', ' '])
            (rfl : ((branch1 ++ d2.path)
              :: ((orBlank (fmtLines d2 false)).map (fun x => vbar ++ x)
                ++ dirLines (d3 :: rest3))).headD []
              = '├' :: ('─' :: '─' :: ' ' :: d2.path)) (by decide)

end PlexIndexer

namespace PlexIndexer

/-! ### Parse-side assembly -/

theorem fmtLines_false_eq (p : Str) (files : List Str) (ds : List FileTree) :
    fmtLines ⟨p, files, ds⟩ false = fileLinesOf files ++ dirLines ds := by
  rw [fmtLines_unfold]
  rfl

theorem fileLinesOf_eq_nil_iff {files : List Str} :
    fileLinesOf files = [] ↔ files = [] := by
  cases files with
  | nil => simp [fileLinesOf]
  | cons f rest => cases rest <;> simp [fileLinesOf]

theorem dirLines_eq_nil_iff {ds : List FileTree} : dirLines ds = [] ↔ ds = [] := by
  cases ds with
  | nil => simp [dirLines]
  | cons d rest => cases rest <;> simp [dirLines]

theorem ht_pos (d : FileTree) : 1 ≤ ht d := by
  cases d with
  | mk p files ds => rw [ht]; omega

theorem ht_le_htAux {ds : List FileTree} {d : FileTree} (h : d ∈ ds) :
    ht d ≤ htAux ds := by
  induction ds with
  | nil => cases h
  | cons e rest ih =>
    rw [htAux]
    rcases List.mem_cons.1 h with rfl | h
    · exact Nat.le_max_left _ _
    · exact le_trans (ih h) (Nat.le_max_right _ _)

theorem map_stripAll3_fileLines {files : List Str}
    (hfs : ∀ f ∈ files, wfFile f = true) :
    (fileLinesOf files).map stripAll3 = files := by
  induction files with
  | nil => rfl
  | cons f rest ih =>
    obtain ⟨_, _, ⟨_, _, h1, h2, h3⟩, _⟩ :=
      wfName_spec ((Bool.and_eq_true .. ▸ hfs f (List.mem_cons_self f rest)).1)
    cases rest with
    | nil =>
      show [branch2 ++ f].map stripAll3 = [f]
      rw [List.map_cons, List.map_nil, stripAll3_branch2 h1 h2 h3]
    | cons f2 rest2 =>
      have heq : fileLinesOf (f :: f2 :: rest2)
          = (branch1 ++ f) :: fileLinesOf (f2 :: rest2) := rfl
      rw [heq, List.map_cons, stripAll3_branch1 h1 h2 h3,
        ih (fun x hx => hfs x (List.mem_cons_of_mem f hx))]

theorem fileLines_all_file {files : List Str}
    (hfs : ∀ f ∈ files, wfFile f = true) :
    ∀ l ∈ fileLinesOf files, is_line_a_file l = true := by
  intro l hl
  rcases mem_fileLinesOf hl with ⟨f, hfm, he⟩
  rcases he with rfl | rfl
  · exact is_line_a_file_of_wfFile (hfs f hfm) '├' (Or.inl rfl)
  · exact is_line_a_file_of_wfFile (hfs f hfm) '└' (Or.inr rfl)

theorem dirLines_not_file {ds : List FileTree} (hds : ∀ d ∈ ds, wfb d = true) :
    ∀ l ∈ dirLines ds, is_line_a_file l = false := by
  intro l hl
  rcases mem_dirLines hl with ⟨d, hdm, he⟩
  rcases he with rfl | rfl | ⟨x, hx, hxe⟩
  · exact not_file_header (wfb_label (hds d hdm)) '├'
  · exact not_file_header (wfb_label (hds d hdm)) '└'
  · rcases hxe with rfl | rfl
    · exact not_file_vbar x
    · exact not_file_sp4 x

theorem dirLines_head_break {ds : List FileTree} (hne : ds ≠ [])
    (hds : ∀ d ∈ ds, wfb d = true) :
    ∃ m0 mrest, dirLines ds = m0 :: mrest ∧ breakLine m0 = true := by
  cases ds with
  | nil => exact absurd rfl hne
  | cons d rest =>
    have hpoll : '│' ∉ d.path :=
      (wfName_spec ((Bool.and_eq_true .. ▸ wfb_label
        (hds d (List.mem_cons_self d rest))).1)).2.2.1.2.2.1
    cases rest with
    | nil =>
      exact ⟨branch2 ++ d.path, _, rfl, breakLine_branch2 hpoll⟩
    | cons d2 rest2 =>
      exact ⟨branch1 ++ d.path, _, rfl, breakLine_branch1 hpoll⟩

theorem fmtLines_false_nil_parts {d : FileTree} (h : fmtLines d false = []) :
    d = ⟨d.path, [], []⟩ := by
  cases d with
  | mk p files ds =>
    rw [fmtLines_false_eq] at h
    rcases List.append_eq_nil.1 h with ⟨h1, h2⟩
    have hf := fileLinesOf_eq_nil_iff.1 h1
    have hd2 := dirLines_eq_nil_iff.1 h2
    subst hf hd2
    rfl

theorem parseF_single (n : Nat) (l0 : Str) :
    parseF (n + 1) [l0] = ⟨stripAll3 l0, [], []⟩ := rfl

/-- Parsing one reassembled directory block recovers the child tree. -/
theorem parse_block {d : FileTree} {n : Nat} (hwf : wfb d = true)
    (hfuel : ht d ≤ n)
    (hIH : ∀ m, ht d ≤ m → parseF m (fmtLines d true) = d) :
    parseF n (rustLines (joinNL (d.path :: orBlank (fmtLines d false)))) = d := by
  obtain ⟨hpne, hphd, ⟨hpn, hpr, hppo, hpb1, hpb2⟩, hp2s⟩ :=
    wfName_spec ((Bool.and_eq_true .. ▸ wfb_label hwf).1)
  by_cases hsub : fmtLines d false = []
  · rw [hsub]
    show parseF n (rustLines (joinNL [d.path, []])) = d
    have hclean : ∀ l ∈ [d.path, ([] : Str)], '\n' ∉ l ∧ '\r' ∉ l := by
      intro l hl
      rcases List.mem_cons.1 hl with rfl | hl
      · exact ⟨hpn, hpr⟩
      · rw [List.mem_singleton.1 hl]
        exact ⟨List.not_mem_nil _, List.not_mem_nil _⟩
    rw [rustLines_joinNL_clean (by simp) hclean]
    have hlast : ([d.path, ([] : Str)].getLast? == some ([] : Str)) = true := by
      rfl
    rw [hlast, if_pos rfl]
    show parseF n [d.path] = d
    obtain ⟨m, rfl⟩ : ∃ m, n = m + 1 := by
      have := ht_pos d
      exact ⟨n - 1, by omega⟩
    rw [parseF_single, stripAll3_id hppo hpb1 hpb2]
    exact (fmtLines_false_nil_parts hsub).symm
  · have horb : orBlank (fmtLines d false) = fmtLines d false := by
      unfold orBlank
      rw [if_neg]
      simpa [List.isEmpty_iff] using hsub
    rw [horb]
    have hclean : ∀ l ∈ d.path :: fmtLines d false, '\n' ∉ l ∧ '\r' ∉ l := by
      intro l hl
      rcases List.mem_cons.1 hl with rfl | hl
      · exact ⟨hpn, hpr⟩
      · have := fmtLines_clean d hwf false l hl
        exact ⟨this.1, this.2.1⟩
    rw [rustLines_joinNL_clean (by simp) hclean]
    have hlast : ((d.path :: fmtLines d false).getLast? == some ([] : Str)) = false := by
      cases hl : (d.path :: fmtLines d false).getLast? with
      | none => rfl
      | some x =>
        have hx : x ∈ d.path :: fmtLines d false :=
          List.mem_of_mem_getLast? (hl ▸ rfl)
        have hxne : x ≠ [] := by
          rcases List.mem_cons.1 hx with rfl | hx
          · exact hpne
          · exact (fmtLines_clean d hwf false x hx).2.2
        simpa using hxne
    rw [hlast]
    simp only [Bool.false_eq_true, if_false]
    rw [← fmtLines_true_eq]
    exact hIH n hfuel

/-- Parsing the scanned directory blocks of the flat directory lines
recovers the children, in order. -/
theorem parse_children {n : Nat} :
    ∀ ds : List FileTree,
      (∀ d ∈ ds, wfb d = true) →
      (∀ d ∈ ds, ht d ≤ n) →
      (∀ d ∈ ds, ∀ m, ht d ≤ m → parseF m (fmtLines d true) = d) →
      (blocksGo (dirLines ds) none).map
        (fun b => parseF n (rustLines (joinNL (adjust4 (b.1 :: b.2))))) = ds := by
  intro ds
  induction ds with
  | nil =>
    intro _ _ _
    rfl
  | cons d rest ih =>
    intro hwf hfuel hIH
    have hd := hwf d (List.mem_cons_self d rest)
    obtain ⟨hpne, hphd, ⟨hpn, hpr, hppo, hpb1, hpb2⟩, hp2s⟩ :=
      wfName_spec ((Bool.and_eq_true .. ▸ wfb_label hd).1)
    have hdfuel := hfuel d (List.mem_cons_self d rest)
    have hdIH := hIH d (List.mem_cons_self d rest)
    cases rest with
    | nil =>
      have heq : dirLines [d] = (branch2 ++ d.path)
          :: (orBlank (fmtLines d false)).map (fun x => sp4 ++ x) := rfl
      rw [heq, blocksGo_none_cons, if_pos (branchStart_branch2 d.path),
        stripBranch_branch2 hpb1 hpb2]
      have hbody := blocksGo_body d.path
        ((orBlank (fmtLines d false)).map (fun x => sp4 ++ x)) [] []
        (fun l hl => by
          rcases List.mem_map.1 hl with ⟨x, _, rfl⟩
          exact breakLine_sp4 x)
        (Or.inl rfl)
      rw [List.append_nil] at hbody
      rw [hbody]
      have hmap : (((orBlank (fmtLines d false)).map (fun x => sp4 ++ x)).map unPoll)
          = (orBlank (fmtLines d false)).map (fun x => sp4 ++ x) := by
        rw [List.map_map]
        exact List.map_congr_left (fun x _ => unPoll_sp4 x)
      show [parseF n (rustLines (joinNL (adjust4 (d.path :: ([]
          ++ ((orBlank (fmtLines d false)).map (fun x => sp4 ++ x)).map unPoll)))))] = [d]
      rw [List.nil_append, hmap, adjust4_strip hp2s (orBlank_ne_nil _)]
      exact congrArg (fun t => [t]) (parse_block hd hdfuel hdIH)
    | cons d2 rest2 =>
      have heq : dirLines (d :: d2 :: rest2) = (branch1 ++ d.path)
          :: ((orBlank (fmtLines d false)).map (fun x => vbar ++ x)
            ++ dirLines (d2 :: rest2)) := rfl
      rw [heq, blocksGo_none_cons, if_pos (branchStart_branch1 d.path),
        stripBranch_branch1 hpb1 hpb2]
      have hrest : ∀ e ∈ d2 :: rest2, wfb e = true :=
        fun e he => hwf e (List.mem_cons_of_mem d he)
      have hbody := blocksGo_body d.path
        ((orBlank (fmtLines d false)).map (fun x => vbar ++ x)) []
        (dirLines (d2 :: rest2))
        (fun l hl => by
          rcases List.mem_map.1 hl with ⟨x, _, rfl⟩
          exact breakLine_vbar x)
        (Or.inr (dirLines_head_break (by simp) hrest))
      rw [hbody]
      have hmap : (((orBlank (fmtLines d false)).map (fun x => vbar ++ x)).map unPoll)
          = orBlank (fmtLines d false) := by
        rw [List.map_map]
        have : ∀ x ∈ orBlank (fmtLines d false),
            (unPoll ∘ fun y => vbar ++ y) x = id x := fun x _ => unPoll_vbar x
        rw [List.map_congr_left this, List.map_id]
      rw [List.map_cons]
      show (parseF n (rustLines (joinNL (adjust4 (d.path :: ([]
            ++ ((orBlank (fmtLines d false)).map (fun x => vbar ++ x)).map unPoll)))))
          :: (blocksGo (dirLines (d2 :: rest2)) none).map
            (fun b => parseF n (rustLines (joinNL (adjust4 (b.1 :: b.2))))))
        = d :: d2 :: rest2
      rw [List.nil_append, hmap, adjust4_id (orBlank_head_not_sp4 d),
        parse_block hd hdfuel hdIH,
        ih hrest (fun e he => hfuel e (List.mem_cons_of_mem d he))
          (fun e he => hIH e (List.mem_cons_of_mem d he))]

/-- Parsing the flat formatted lines of a well-formed tree recovers the
tree exactly, given fuel at least the tree height. -/
theorem parse_fmt : ∀ t, wfb t = true → ∀ n, ht t ≤ n →
    parseF n (fmtLines t true) = t := by
  refine treeInduction (motive := fun t => wfb t = true → ∀ n, ht t ≤ n →
    parseF n (fmtLines t true) = t) ?_
  intro p files ds ih hwf n hn
  obtain ⟨hp, hfs, hds⟩ := wfb_parts hwf
  obtain ⟨hpne, hphd, ⟨hpn, hpr, hppo, hpb1, hpb2⟩, hp2s⟩ :=
    wfName_spec ((Bool.and_eq_true .. ▸ hp).1)
  cases n with
  | zero =>
    rw [ht] at hn
    omega
  | succ m =>
    have heq : fmtLines ⟨p, files, ds⟩ true
        = p :: (fileLinesOf files ++ dirLines ds) := by
      rw [fmtLines_true_eq]
      show p :: fmtLines ⟨p, files, ds⟩ false = _
      rw [fmtLines_false_eq]
    rw [heq]
    have hstep : parseF (m + 1) (p :: (fileLinesOf files ++ dirLines ds))
        = ⟨stripAll3 p,
           ((fileLinesOf files ++ dirLines ds).filter is_line_a_file).map stripAll3,
           (blocksGo ((fileLinesOf files ++ dirLines ds).filter
               (fun x => !is_line_a_file x)) none).map
             (fun b => parseF m (rustLines (joinNL (adjust4 (b.1 :: b.2)))))⟩ := rfl
    rw [hstep]
    have hfilter1 : (fileLinesOf files ++ dirLines ds).filter is_line_a_file
        = fileLinesOf files := by
      rw [List.filter_append, List.filter_eq_self.2 (fileLines_all_file hfs),
        List.filter_eq_nil_iff.2
          (fun l hl => by rw [dirLines_not_file hds l hl]; simp),
        List.append_nil]
    have hfilter2 : (fileLinesOf files ++ dirLines ds).filter
        (fun x => !is_line_a_file x) = dirLines ds := by
      rw [List.filter_append,
        List.filter_eq_nil_iff.2
          (fun l hl => by rw [fileLines_all_file hfs l hl]; simp),
        List.filter_eq_self.2
          (fun l hl => by rw [dirLines_not_file hds l hl]; simp),
        List.nil_append]
    rw [hfilter1, hfilter2, stripAll3_id hppo hpb1 hpb2,
      map_stripAll3_fileLines hfs,
      parse_children ds hds
        (fun d hd => by
          have h1 := ht_le_htAux hd
          rw [ht] at hn
          omega)
        (fun d hd => ih d hd (hds d hd))]

/-- Claim C1 as amended: the format–parse–format round trip reproduces
the text exactly for every tree whose labels and file names are
well-formed — non-empty, not starting with a space, free of newlines,
carriage returns and box-drawing glyphs, with no two consecutive
spaces — whose file names end with a recognized suffix, and whose
directory labels do not end with a recognized suffix.  (Each condition
is forced by a further counterexample of the `txtTree` kind: a file
without a recognized suffix, or a name embedding a glyph or a space
run, derails the suffix-and-depth-based line classification.) -/
theorem c1_amended :
    ∀ t : FileTree, wfb t = true →
      to_file_tree (new_from_file_tree (to_file_tree t true)) true
        = to_file_tree t true := by
  intro t h
  unfold new_from_file_tree
  rw [rustLines_to_file_tree h,
    parse_fmt t h _ (fmtLines_length_ge_ht t)]

/-- Witness for C1: the round trip on the concrete well-formed `/lib`
scenario tree. -/
theorem c1_witness :
    wfb libTree = true
      ∧ to_file_tree (new_from_file_tree (to_file_tree libTree true)) true
        = to_file_tree libTree true :=
  ⟨by decide, c1_amended libTree (by decide)⟩

end PlexIndexer
